import Mathlib

/-!
Verification development for the observable graph engine of the
`legend-state` repository (src/src/observable.ts and the primitive-root
wrapper class).  The TypeScript sources are shallowly embedded: plain JS
data values become the inductive type `Value`, the mutable node graph and
the notification machinery become an explicit state record threaded
through the embedded operations, and thrown exceptions become explicit
outcome constructors.  Helper modules of the repository that are not part
of the provided sources (globals.ts, is.ts, notify.ts, batching.ts,
tracking.ts) are modelled from the specification's contracts; each such
definition carries a doc comment starting with `Modelled from the spec:`.
-/

/-- A property key of a JS container: a string property name or an
integer array index (kept distinct, as a JS `Map` distinguishes the
number `1` from the string `"1"`). -/
inductive Key where
  | str (s : String)
  | idx (n : Nat)
deriving DecidableEq, Repr

/-- A plain JS data value, as stored in an observable tree.  Numbers are
modelled as integers; objects keep their fields in insertion order. -/
inductive Value where
  | undef
  | null
  | bool (b : Bool)
  | num (n : Int)
  | str (s : String)
  | obj (fields : List (String × Value))
  | arr (elems : List Value)
deriving Repr

namespace Value

/-- Structural equality test on values, standing in for JS identity
(`!==`).  It is exact for primitives; for containers it identifies
reference-equal values (the reorder scenarios of the spec reuse the same
element references, where reference equality and structural equality
agree). -/
def beq : Value → Value → Bool
  | .undef, .undef => true
  | .null, .null => true
  | .bool a, .bool b => a == b
  | .num a, .num b => a == b
  | .str a, .str b => a == b
  | .obj a, .obj b => beqFields a b
  | .arr a, .arr b => beqList a b
  | _, _ => false
where
  beqFields : List (String × Value) → List (String × Value) → Bool
    | [], [] => true
    | (ka, va) :: as, (kb, vb) :: bs => ka == kb && beq va vb && beqFields as bs
    | _, _ => false
  beqList : List Value → List Value → Bool
    | [], [] => true
    | a :: as, b :: bs => beq a b && beqList as bs
    | _, _ => false

instance : BEq Value := ⟨beq⟩

mutual
theorem beq_iff : ∀ a b : Value, beq a b = true ↔ a = b
  | .undef, b => by cases b <;> simp [beq]
  | .null, b => by cases b <;> simp [beq]
  | .bool x, b => by cases b <;> simp [beq]
  | .num x, b => by cases b <;> simp [beq]
  | .str x, b => by cases b <;> simp [beq]
  | .obj fs, b => by
      cases b with
      | obj gs =>
        simp only [beq, Value.obj.injEq]
        exact beqFields_iff fs gs
      | _ => simp [beq]
  | .arr es, b => by
      cases b with
      | arr ds =>
        simp only [beq, Value.arr.injEq]
        exact beqList_iff es ds
      | _ => simp [beq]

theorem beqFields_iff : ∀ a b : List (String × Value), beq.beqFields a b = true ↔ a = b
  | [], b => by cases b <;> simp [beq.beqFields]
  | (ka, va) :: as, b => by
      cases b with
      | nil => simp [beq.beqFields]
      | cons hb bs =>
        obtain ⟨kb, vb⟩ := hb
        simp only [beq.beqFields, Bool.and_eq_true, beq_iff va vb, beqFields_iff as bs,
          List.cons.injEq, Prod.mk.injEq, beq_iff_eq]

theorem beqList_iff : ∀ a b : List Value, beq.beqList a b = true ↔ a = b
  | [], b => by cases b <;> simp [beq.beqList]
  | a :: as, b => by
      cases b with
      | nil => simp [beq.beqList]
      | cons hb bs =>
        simp only [beq.beqList, Bool.and_eq_true, beq_iff a hb, beqList_iff as bs,
          List.cons.injEq]
end

instance : DecidableEq Value := fun a b =>
  decidable_of_iff (beq a b = true) (beq_iff a b)

/-- Modelled from the spec: `isArray` of is.ts. -/
def isArr : Value → Bool
  | .arr _ => true
  | _ => false

/-- Modelled from the spec: `isObject` of is.ts (a non-null, non-array
object). -/
def isObj : Value → Bool
  | .obj _ => true
  | _ => false

/-- Modelled from the spec: `isPrimitive` of is.ts — a value that is not
an object and not an array (structural values are exactly objects and
arrays in this data model). -/
def isPrimitive : Value → Bool
  | .obj _ => false
  | .arr _ => false
  | _ => true

/-- JS truthiness: `undefined`, `null`, `false`, `0` and `""` are falsy. -/
def truthy : Value → Bool
  | .undef => false
  | .null => false
  | .bool b => b
  | .num n => n != 0
  | .str s => s ≠ ""
  | _ => true

/-- Decimal digit value of a character, if any. -/
def digitVal? (c : Char) : Option Nat :=
  if 48 ≤ c.toNat ∧ c.toNat ≤ 57 then some (c.toNat - 48) else none

def parseDigits : List Char → Option Nat → Option Nat
  | [], acc => acc
  | c :: cs, acc =>
    match digitVal? c, acc with
    | some d, some a => parseDigits cs (some (a * 10 + d))
    | some d, none => parseDigits cs (some d)
    | none, _ => none

/-- The canonical-array-index reading of a string key: `some i` exactly
when the string is the canonical decimal spelling of `i` (JS treats only
canonical numeric strings as array indices). -/
def strIdx? (s : String) : Option Nat :=
  match parseDigits s.data none with
  | some i => if toString i = s then some i else none
  | none => none

/-- First binding of a string key in an object's field list (JS object
keys are unique, so first binding is the binding). -/
def lookupStr : List (String × Value) → String → Value
  | [], _ => .undef
  | (k, v) :: fs, s => if k = s then v else lookupStr fs s

/-- Property read `v[k]`, with JS key coercion: integer keys on objects
read the decimal string property, numeric-string keys on arrays read the
index, and `length` on an array yields its length.  Missing properties
and reads on primitives yield `undefined`. -/
def get? : Value → Key → Value
  | .obj fs, .str s => lookupStr fs s
  | .obj fs, .idx i => lookupStr fs (toString i)
  | .arr es, .idx i => es.getD i .undef
  | .arr es, .str s =>
      if s = "length" then .num es.length
      else match strIdx? s with
        | some i => es.getD i .undef
        | none => .undef
  | _, _ => (.undef : Value)

/-- Replace the binding of `s`, or append it (JS adds new keys at the
end of the insertion order). -/
def setField : List (String × Value) → String → Value → List (String × Value)
  | [], s, v => [(s, v)]
  | (k, w) :: fs, s, v => if k = s then (s, v) :: fs else (k, w) :: setField fs s v

/-- Set an array index, extending with `undefined` holes past the end as
JS assignment does. -/
def setElem : List Value → Nat → Value → List Value
  | [], 0, v => [v]
  | [], n + 1, v => .undef :: setElem [] n v
  | _ :: es, 0, v => v :: es
  | e :: es, n + 1, v => e :: setElem es n v

/-- Property write `v[k] = x`.  Writes on primitives are silent no-ops
(sloppy-mode JS).  Key coercion matches `get?`. -/
def setK : Value → Key → Value → Value
  | .obj fs, .str s, x => .obj (setField fs s x)
  | .obj fs, .idx i, x => .obj (setField fs (toString i) x)
  | .arr es, .idx i, x => .arr (setElem es i x)
  | .arr es, .str s, x =>
      (match strIdx? s with
        | some i => .arr (setElem es i x)
        | none => .arr es)
  | v, _, _ => v

/-- Remove the binding of `s` from an object's field list. -/
def removeField : List (String × Value) → String → List (String × Value)
  | [], _ => []
  | (k, w) :: fs, s => if k = s then fs else (k, w) :: removeField fs s

/-- Property delete `delete v[k]`.  Deleting an array index leaves a
hole, modelled as `undefined` at that position with the length
unchanged, as JS `delete` does not shrink arrays. -/
def deleteK : Value → Key → Value
  | .obj fs, .str s => .obj (removeField fs s)
  | .obj fs, .idx i => .obj (removeField fs (toString i))
  | .arr es, .idx i => .arr (if i < es.length then setElem es i .undef else es)
  | .arr es, .str s =>
      (match strIdx? s with
        | some i => .arr (if i < es.length then setElem es i .undef else es)
        | none => .arr es)
  | v, _ => v

/-- Whether `k` is an own key of the container (for an array: a filled
index below the length). -/
def hasOwn : Value → Key → Bool
  | .obj fs, .str s => (fs.map Prod.fst).contains s
  | .obj fs, .idx i => (fs.map Prod.fst).contains (toString i)
  | .arr es, .idx i => i < es.length
  | .arr es, .str s =>
      (match strIdx? s with
        | some i => i < es.length
        | none => false)
  | _, _ => false

/-- `Object.keys` as string keys: field names of an object, decimal
indices of an array.  Primitives report no keys (deviation: JS reports
the character indices of a string; string-valued containers never reach
the key-iterating code paths exercised here). -/
def jsKeysStr : Value → List String
  | .obj fs => fs.map Prod.fst
  | .arr es => (List.range es.length).map toString
  | _ => []

/-- `v?.length` as the JS engine sees it: defined for arrays and
strings, `undefined` (here `none`) otherwise. -/
def jsLength : Value → Option Nat
  | .arr es => some es.length
  | .str s => some s.length
  | _ => none

end Value

/-! ## The primitive-root wrapper (ObservablePrimitiveClass)

A primitive root is not proxy-wrapped; it is a dedicated class holding a
single node whose root stores the raw value (`root._`), a `locked` flag
and a one-shot `activate` hook.  The embedding instruments the state
with the observable effects the claims speak about: the number of
`updateTracking` calls on the wrapper's node, the `doNotify` dispatches
(new value, previous value, level), and the arguments passed to updater
functions given to `set`. -/

structure PrimState where
  /-- `root._`, the raw stored value. -/
  val : Value
  /-- `root.locked`. -/
  locked : Bool
  /-- Modelled from the spec: `root.activate`, the optional one-shot
  lazy-hydration initializer; invoking it may replace the root value. -/
  activate : Option (Value → Value)
  /-- Instrumentation: number of `updateTracking` calls recorded against
  the wrapper's node. -/
  tracked : Nat
  /-- Instrumentation: `doNotify(node, value, [], value, prev, 0)`
  dispatches, as (value, prev, level) triples in dispatch order. -/
  notifs : List (Value × Value × Int)
  /-- Instrumentation: the argument passed at each invocation of an
  updater function handed to `set`. -/
  updaterArgs : List Value

/-- `peek()`: invoke and clear the root's `activate` hook if present,
then return the raw root value (the hook runs before the value is
read).  No tracking is recorded. -/
def primPeek (s : PrimState) : Value × PrimState :=
  match s.activate with
  | some f =>
      let s' := { s with val := f s.val, activate := none }
      (s'.val, s')
  | none => (s.val, s)

/-- `get()`: record a tracked dependency on the node
(`updateTracking(node)`), then delegate to `peek()`. -/
def primGet (s : PrimState) : Value × PrimState :=
  primPeek { s with tracked := s.tracked + 1 }

/-- The argument accepted by the wrapper's `set`: a literal value or an
updater function of the previous value. -/
inductive PrimArg where
  | lit (v : Value)
  | updater (f : Value → Value)

/-- `set(value)` of the primitive wrapper.  The updater (if any) is
invoked with the current root value *before* the locked check; a locked
root then throws (second component `true`) with the value and the
notification log unchanged.  Otherwise the value is stored and exactly
one `doNotify` with level 0 is dispatched, with no equality check. -/
def primSet (s : PrimState) (arg : PrimArg) : PrimState × Bool :=
  let (v, s) :=
    match arg with
    | .lit v => (v, s)
    | .updater f => (f s.val, { s with updaterArgs := s.updaterArgs ++ [s.val] })
  if s.locked then
    (s, true)
  else
    let prev := s.val
    ({ s with val := v, notifs := s.notifs ++ [(v, prev, 0)] }, false)

/-! ## The object/array observable graph

State of the proxy-wrapped observable engine: the root value store, the
node graph (an association list from node id to node record, with
children as an association list from key to child id, mirroring the JS
`Map`), the module-level `inSet`/`inAssign` re-entrancy flags, and an
instrumentation log of batching/notification events. -/

/-- First binding of a key in an association list. -/
def alGet {α β : Type} [DecidableEq α] : List (α × β) → α → Option β
  | [], _ => none
  | (a, b) :: l, x => if a = x then some b else alGet l x

/-- Replace the first binding of a key, or append a new binding (the
insertion-order behaviour of a JS `Map.set`). -/
def alSet {α β : Type} [DecidableEq α] : List (α × β) → α → β → List (α × β)
  | [], x, y => [(x, y)]
  | (a, b) :: l, x, y => if a = x then (x, y) :: l else (a, b) :: alSet l x y

mutual
/-- Structural size of a value, used as fuel bound for the recursive
diff. -/
def sizeV : Value → Nat
  | .obj fs => 1 + sizeFields fs
  | .arr es => 1 + sizeList es
  | _ => 0

def sizeFields : List (String × Value) → Nat
  | [] => 0
  | (_, v) :: fs => sizeV v + sizeFields fs + 1

def sizeList : List Value → Nat
  | [] => 0
  | v :: es => sizeV v + sizeList es + 1
end

/-- A node of the observable graph (`NodeValue` in the source): identity,
parent/key linkage, lazily populated children map, and whether listeners
are registered against this exact node. -/
structure Node where
  id : Nat
  parent : Option Nat
  key : Key
  children : List (Key × Nat)
  listeners : Bool
deriving DecidableEq, Repr

/-- The root value store (`ObservableWrapper`): the raw tree `_`, the
tri-state safe mode (0 unrestricted, 1 default, 2 strict) and the locked
flag. -/
structure RootW where
  val : Value
  safeMode : Nat
  locked : Bool
deriving DecidableEq, Repr

/-- Instrumentation events: batch bracketing, `notify` invocations (from
the write pipeline) and `doNotify` invocations (direct child
notifications from the diff), and the developer warning logged on an
implicit delete during tracked evaluation. -/
inductive Event where
  | beginBatchEv
  | endBatchEv
  | notifyEv (node : Nat) (value prev : Value) (level : Int) (whenOptimizedOnlyIf : Bool)
  | doNotifyEv (node : Nat) (value prev : Value) (level : Int) (immediate : Bool)
  | warnImplicitDelete
deriving DecidableEq, Repr

structure GState where
  root : RootW
  nodes : List (Nat × Node)
  nextId : Nat
  events : List Event
  inSet : Bool
  inAssign : Bool
  batchDepth : Nat
  devMode : Bool
  isTracking : Bool
deriving DecidableEq, Repr

def GState.node? (s : GState) (i : Nat) : Option Node := alGet s.nodes i

def setNode (s : GState) (i : Nat) (n : Node) : GState :=
  { s with nodes := alSet s.nodes i n }

def emit (s : GState) (e : Event) : GState :=
  { s with events := s.events ++ [e] }

def listenersOf (s : GState) (i : Nat) : Bool :=
  match s.node? i with
  | some n => n.listeners
  | none => false

/-- `child.key = key`: update a node's key field (array move). -/
def setNodeKey (s : GState) (i : Nat) (k : Key) : GState :=
  match s.node? i with
  | some n => setNode s i { n with key := k }
  | none => s

/-- Modelled from the spec: `beginBatch()` of the external batching
collaborator — reference-counted batch open (§4.4); the embedding
records the bracketing event. -/
def beginBatch (s : GState) : GState :=
  { s with batchDepth := s.batchDepth + 1, events := s.events ++ [.beginBatchEv] }

/-- Modelled from the spec: `endBatch()` — close the innermost batch. -/
def endBatch (s : GState) : GState :=
  { s with batchDepth := s.batchDepth - 1, events := s.events ++ [.endBatchEv] }

/-- Modelled from the spec: `ensureChild(node, key)` of §4.1 (the
source's `getChildNode`) — return the child node for `key`, creating and
caching it with a fresh id and a parent back-reference if absent.  Pure
with respect to the value tree. -/
def getChildNode (s : GState) (pid : Nat) (k : Key) : GState × Nat :=
  match s.node? pid with
  | none => (s, pid)
  | some p =>
    match alGet p.children k with
    | some cid => (s, cid)
    | none =>
      let cid := s.nextId
      let child : Node :=
        { id := cid, parent := some pid, key := k, children := [], listeners := false }
      let s := { s with nextId := cid + 1 }
      let s := setNode s pid { p with children := alSet p.children k cid }
      let s := setNode s cid child
      (s, cid)

/-- Key path of a node, walking the parent/key chain toward the root;
the fuel bounds the chain length. -/
def nodePathAux (s : GState) : Nat → Nat → List Key
  | 0, _ => []
  | fuel + 1, i =>
    match s.node? i with
    | some n =>
      match n.parent with
      | some p => nodePathAux s fuel p ++ [n.key]
      | none => []
    | none => []

def nodePath (s : GState) (i : Nat) : List Key :=
  nodePathAux s (s.nextId + 1) i

def Value.getPath : Value → List Key → Value
  | v, [] => v
  | v, k :: ks => (v.get? k).getPath ks

/-- Modelled from the spec: `getNodeValue(node)` of §4.1 — resolve the
current raw value at the node's position by walking from the root
through the parent/key chain. -/
def getNodeValue (s : GState) (i : Nat) : Value :=
  s.root.val.getPath (nodePath s i)

/-- Modelled from the spec: `ensureNodeValue(node)` — materialize the
node's container value, creating empty objects where the chain is
undefined, and leave everything else untouched. -/
def ensureAt : Value → List Key → Value
  | v, [] => if v = .undef then .obj [] else v
  | v, k :: ks =>
    let v' := if v = .undef then Value.obj [] else v
    v'.setK k (ensureAt (v'.get? k) ks)

/-- Write a value at a key path from the root. -/
def setPath : Value → List Key → Value → Value
  | _, [], nv => nv
  | v, k :: ks, nv => v.setK k (setPath (v.get? k) ks nv)

/-- Delete the final key of a path from the root. -/
def deletePath : Value → List Key → Value
  | v, [] => v
  | v, [k] => v.deleteK k
  | v, k :: ks => v.setK k (deletePath (v.get? k) ks)

/-! ### The recursive diff (`updateNodes`)

`updateNodes(parent, obj, prevValue)` is embedded with explicit fuel
(decremented once per nested `updateNodes` entry; the write pipeline
supplies fuel strictly larger than the value sizes, which bounds the
nesting depth).  The two interior loops are `List.foldl` over bodies
that take the recursive call as a parameter, so lemmas can be proved
about one loop step with the recursion abstracted. -/

/-- Identity-field sniffing from the first previous element: `id`, then
`_id`, then `__id` (a field explicitly set to `undefined` counts as
absent, as in `p.id !== undefined`). -/
def sniffId (p : Value) : Option String :=
  if p.get? (.str "id") ≠ .undef then some "id"
  else if p.get? (.str "_id") ≠ .undef then some "_id"
  else if p.get? (.str "__id") ≠ .undef then some "__id"
  else none

/-- The sniffed id field of a previous array value: only when the
previous value is a non-empty array whose first element is truthy. -/
def idFieldOf : Value → Option String
  | .arr (p :: _) => if p.truthy then sniffId p else none
  | _ => none

/-- Build the identity → previous-index map: for each truthy previous
element, `keyMap.set(p[idField], i)` (later bindings overwrite). -/
def buildKeyMapFrom (fld : String) : Nat → List Value → List (Value × Nat) → List (Value × Nat)
  | _, [], km => km
  | i, p :: ps, km =>
    buildKeyMapFrom fld (i + 1) ps
      (if p.truthy then alSet km (p.get? (.str fld)) i else km)

def buildKeyMap (fld : String) (es : List Value) : List (Value × Nat) :=
  buildKeyMapFrom fld 0 es []

/-- `keys.includes(key)` in the removed-keys pass, where `keys` is the
new array *itself* when the new value is an array (so membership is
against the array's elements), else `Object.keys(newObj)` (or `[]` for a
falsy new value). -/
def remKeysIncludes (newObj : Value) (key : String) : Bool :=
  match newObj with
  | .arr es => es.contains (Value.str key)
  | _ => if newObj.truthy then newObj.jsKeysStr.contains key else false

/-- One step of the removed-keys pass: for a previous key absent from
the new value, recurse to notify removal of a non-primitive previous
child value, then notify the child directly with `undefined` if it has
listeners. -/
def removalBody (recur : GState → Nat → Value → Value → GState × Bool)
    (parentId : Nat) (newObj prevValue : Value) (s : GState) (key : String) : GState :=
  if remKeysIncludes newObj key then s
  else
    let g := getChildNode s parentId (.str key)
    let child := g.2
    let prev := prevValue.get? (.str key)
    let s := if prev.isPrimitive then g.1 else (recur g.1 child .undef prev).1
    if listenersOf s child then emit s (.doNotifyEv child .undef prev 0 false) else s

/-- Accumulator of the main per-key loop: evolving state, the
`hasADiff`/`didMove` flags, and the pending `moved` reparentings
(applied to the parent's children map after the loop). -/
structure LoopAcc where
  s : GState
  hasADiff : Bool
  didMove : Bool
  moved : List (Key × Nat)

/-- The move-detection block of the main loop: look the element’s
identity up in the previous-index map and, when it maps to a different
previous index, flag the move; only when the array length changed is the
original node at the previous index fetched, its key field updated to
the new key, and the reparenting recorded in `moved`.  In every case the
diff flag for this slot is re-evaluated against the previous value at
the previous position when a move was detected.  Returns
(state, child node, isDiff, didMove, moved). -/
def moveStep (parentId : Nat) (obj prevValue : Value)
    (keyMap : Option (List (Value × Nat))) (isArrDiff : Bool) (acc : LoopAcc)
    (key : Key) (value id : Value) (isDiff : Bool) :
    GState × Nat × Bool × Bool × List (Key × Nat) :=
  let g0 := getChildNode acc.s parentId key
  if obj.isArr && decide (id ≠ .undef) then
    match keyMap.bind (fun km => alGet km id) with
    | some j =>
      if Key.idx j ≠ key then
        if isArrDiff then
          let g1 := getChildNode g0.1 parentId (.idx j)
          (setNodeKey g1.1 g1.2 key, g1.2,
           decide (prevValue.get? (.idx j) ≠ value), true, acc.moved ++ [(key, g1.2)])
        else
          (g0.1, g0.2, decide (prevValue.get? (.idx j) ≠ value), true, acc.moved)
      else (g0.1, g0.2, isDiff, acc.didMove, acc.moved)
    | none => (g0.1, g0.2, isDiff, acc.didMove, acc.moved)
  else (g0.1, g0.2, isDiff, acc.didMove, acc.moved)

/-- One step of the main per-key loop of `updateNodes`: diff the slot,
run the move detection, recurse into non-primitive changed values, and
notify the child’s own listeners. -/
def mainBody (recur : GState → Nat → Value → Value → GState × Bool)
    (parentId : Nat) (obj prevValue : Value) (idField : Option String)
    (keyMap : Option (List (Value × Nat))) (isArrDiff : Bool)
    (acc : LoopAcc) (key : Key) : LoopAcc :=
  let value := obj.get? key
  let prev := prevValue.get? key
  let isDiff := decide (value ≠ prev)
  if isDiff then
    let id :=
      match idField with
      | some fld => value.get? (.str fld)
      | none => .undef
    let mv := moveStep parentId obj prevValue keyMap isArrDiff acc key value id isDiff
    let child := mv.2.1
    let isDiff2 := mv.2.2.1
    let didMove := mv.2.2.2.1
    let moved := mv.2.2.2.2
    let hasADiff := acc.hasADiff || isDiff2
    let s := if isDiff2 && !value.isPrimitive then (recur mv.1 child value prev).1 else mv.1
    let s :=
      if (isDiff2 || !isArrDiff) && listenersOf s child then
        emit s (.doNotifyEv child value prev 0 (!isArrDiff))
      else s
    { s := s, hasADiff := hasADiff, didMove := didMove, moved := moved }
  else acc

/-- Apply the pending moves: `parent.children.set(key, child)` for each
recorded move, in order. -/
def applyMoved (s : GState) (parentId : Nat) (moved : List (Key × Nat)) : GState :=
  moved.foldl
    (fun s kc =>
      match s.node? parentId with
      | some p => setNode s parentId { p with children := alSet p.children kc.1 kc.2 }
      | none => s)
    s

/-- The key list iterated by the main loop: indices for an array, else
`Object.keys`. -/
def loopKeys : Value → List Key
  | .arr es => (List.range es.length).map .idx
  | v => v.jsKeysStr.map .str

/-- The `if (obj) { … }` tail of `updateNodes`: the main per-key loop,
the application of pending moves, and the `hasADiff || didMove` result
(a falsy JS `undefined` return is modelled as `false`). -/
def mainPart (recur : GState → Nat → Value → Value → GState × Bool)
    (s : GState) (parentId : Nat) (obj prevValue : Value)
    (idField : Option String) (keyMap : Option (List (Value × Nat))) : GState × Bool :=
  if obj.truthy then
    let hasADiff0 := !obj.isArr || decide (obj.jsLength ≠ prevValue.jsLength)
    let isArrDiff := hasADiff0
    let acc :=
      (loopKeys obj).foldl (mainBody recur parentId obj prevValue idField keyMap isArrDiff)
        { s := s, hasADiff := hasADiff0, didMove := false, moved := [] }
    (applyMoved acc.s parentId acc.moved, acc.hasADiff || acc.didMove)
  else if prevValue.truthy then (s, true)
  else (s, false)

/-- The recursive diff/update.  The first branch (both values arrays)
sniffs the identity field and builds the move map; otherwise a truthy
previous value runs the removed-keys pass (the source's extra
`!obj || obj.hasOwnProperty` conjunct is always true for the plain data
values of this model).  Then the main per-key pass runs over a truthy
new value. -/
def updateNodes : Nat → GState → Nat → Value → Value → GState × Bool
  | 0, s, _, _, _ => (s, false)
  | fuel + 1, s, parentId, obj, prevValue =>
    let recur := fun s i o p => updateNodes fuel s i o p
    if obj.isArr && prevValue.isArr then
      let idField := idFieldOf prevValue
      let keyMap :=
        idField.map fun fld =>
          match prevValue with
          | .arr ps => buildKeyMap fld ps
          | _ => []
      mainPart recur s parentId obj prevValue idField keyMap
    else
      let s :=
        if prevValue.truthy then
          prevValue.jsKeysStr.foldl (removalBody recur parentId obj prevValue) s
        else s
      mainPart recur s parentId obj prevValue none none

/-! ### The write pipeline (`setKey`, `set`, `assign`, `deleteFn`)

`setKey` is the single choke point of every write.  Its embedding
returns, on success, a trace record exposing the source's local
variables (resolved child node, previous value, resolved new value, the
argument's `isPrim` classification, the diff result, and the notify
decision), so theorems can speak about the pipeline's observable
decisions without duplicating its definition.  Thrown exceptions become
the `lockedError` / `typeError` outcomes. -/

/-- A key argument of `setKey`: an ordinary key, or the `symbolUndef`
sentinel that `set` passes to address the root slot. -/
inductive SKey where
  | key (k : Key)
  | undefSym
deriving DecidableEq, Repr

/-- A value argument of the write pipeline: a plain value, an updater
function of the previous value, or the delete sentinel (`symbolUndef`).
A foreign observable passed as the new value (unwrapped via its `get()`
in the source) is outside this plain-data model. -/
inductive SetVal where
  | v (x : Value)
  | fn (f : Value → Value)
  | sentinel

/-- `isPrimitive(newValue)` on the raw argument: a function argument is
not primitive data; the sentinel is replaced by `undefined` before this
classification is made. -/
def SetVal.isPrim : SetVal → Bool
  | .v x => x.isPrimitive
  | .fn _ => false
  | .sentinel => true

/-- The source's local variables of one `setKey` run, in the state they
had at the notify step. -/
structure SetTrace where
  childId : Nat
  isRoot : Bool
  prevValue : Value
  newValue : Value
  argPrim : Bool
  hasADiff : Bool
  notified : Bool
  level : Int
  whenOptimizedOnlyIf : Bool

/-- Outcome of a pipeline write: success with the trace, the
locked-observable error, or the TypeError thrown when the
primitive-value unwrap walks to a missing parent. -/
inductive SetOutcome where
  | ok (t : SetTrace)
  | lockedError
  | typeError

def SetOutcome.isOk : SetOutcome → Bool
  | .ok _ => true
  | _ => false

def keyOf : SKey → Key
  | .key k => k
  | .undefSym => .str "undefined"

/-- The diff-and-notify tail of `setKey` (lines 424–452): open the
batch, run `updateNodes` when the new or previous value is structural,
invoke `notify` when the value is structural or changed — with the level
argument `level ?? prevValue === undefined ? -1 : hasADiff ? 0 : 1`,
which JS parses as `(level ?? (prevValue === undefined)) ? -1 :
(hasADiff ? 0 : 1)`, so a provided numeric level is itself the tested
condition (truthy iff nonzero) — then close the batch and drop `inSet`.
Returns the final state and the trace of the run's local variables. -/
def notifyPhase (s : GState) (childId : Nat) (resolved prevValue : Value)
    (level : Option Int) (isPrim isRootB : Bool) : GState × SetTrace :=
  let s := beginBatch s
  -- If new value is an object or array update notify down the tree
  let diffRes : GState × Bool × Bool :=
    if !isPrim || !prevValue.isPrimitive then
      let u := updateNodes (sizeV resolved + sizeV prevValue + 2) s childId resolved prevValue
      (u.1, u.2, if resolved.isArr then decide (resolved.jsLength ≠ prevValue.jsLength) else false)
    else (s, isPrim, false)
  let s := diffRes.1
  let hasADiff := diffRes.2.1
  let whenOpt := diffRes.2.2
  -- Notify for this element if it's an object or it's changed
  let notified := !isPrim || decide (resolved ≠ prevValue)
  let lvlCond : Bool :=
    match level with
    | some l => decide (l ≠ 0)
    | none => decide (prevValue = .undef)
  let lvl : Int := if lvlCond then -1 else if hasADiff then 0 else 1
  let s := if notified then emit s (.notifyEv childId resolved prevValue lvl whenOpt) else s
  let s := endBatch s
  let s := { s with inSet := false }
  (s, { childId := childId, isRoot := isRootB, prevValue := prevValue, newValue := resolved,
        argPrim := isPrim, hasADiff := hasADiff, notified := notified, level := lvl,
        whenOptimizedOnlyIf := whenOpt })

/-- Lines 390–452 of `setKey`: everything after the locked check and the
primitive-`value`-key unwrap.  `isDelete` and `isPrim` were computed by
the caller on the raw argument. -/
def setKeyCore (s : GState) (nodeId : Nat) (key : SKey) (newValue : SetVal)
    (level : Option Int) (isDelete isPrim : Bool) : GState × SetOutcome :=
  let s := { s with inSet := true }
  let nodeParent := (s.node? nodeId).bind (·.parent)
  let isRoot :=
    key = SKey.undefSym ∨ (nodeParent = none ∧ key = .key (.str "value") ∧ isPrim = true)
  -- `untrack(childNode)`: tracking-context bookkeeping of the external
  -- tracking collaborator; no effect on the value, node or event state.
  if isRoot then
    -- The parent "container" is the root wrapper itself (slot `_`): the
    -- child node is the node itself and the previous value is the root
    let prevValue := s.root.val
    let resolved :=
      match newValue with
      | .v x => x
      | .fn f => if s.inAssign then .undef else f prevValue
      | .sentinel => .undef
    let s := { s with root := { s.root with val := if isDelete then .undef else resolved } }
    let r := notifyPhase s nodeId resolved prevValue level isPrim true
    (r.1, .ok r.2)
  else
    -- Get the child node for updating and notifying, then
    -- `ensureNodeValue(node)` and the previous value at the key
    let gc := getChildNode s nodeId (keyOf key)
    let path := nodePath gc.1 nodeId
    let s := { gc.1 with root := { gc.1.root with val := ensureAt gc.1.root.val path } }
    let prevValue := (s.root.val.getPath path).get? (keyOf key)
    -- Compute newValue if newValue is a function (not inside assign); a
    -- function stored verbatim during assign is outside the data model
    -- and unreachable through the embedded `assign`, which takes plain
    -- values
    let resolved :=
      match newValue with
      | .v x => x
      | .fn f => if s.inAssign then .undef else f prevValue
      | .sentinel => (.undef : Value)
    -- Save the new value (or delete the key)
    let rv :=
      if isDelete then deletePath s.root.val (path ++ [keyOf key])
      else setPath s.root.val (path ++ [keyOf key]) resolved
    let s := { s with root := { s.root with val := rv } }
    let r := notifyPhase s gc.2 resolved prevValue level isPrim false
    (r.1, .ok r.2)

/-- `setKey(node, key, newValue, level)`: the locked check first (before
any mutation), then the delete-sentinel replacement, the primitive
`value`-key unwrap (which throws a TypeError when the node has no
parent — after `inSet` was already raised), then the core. -/
def setKey (s : GState) (nodeId : Nat) (key : SKey) (newValue : SetVal)
    (level : Option Int) : GState × SetOutcome :=
  if s.root.locked then (s, .lockedError)
  else
    let isDelete := match newValue with | .sentinel => true | _ => false
    let newValue := match newValue with | .sentinel => SetVal.v .undef | x => x
    let isPrim := newValue.isPrim
    if isPrim && decide (key = SKey.key (.str "value")) && (getNodeValue s nodeId).isPrimitive then
      match s.node? nodeId with
      | some n =>
        match n.parent with
        | some p => setKeyCore s p (.key n.key) newValue level isDelete isPrim
        | none => ({ s with inSet := true }, .typeError)
      | none => setKeyCore s nodeId key newValue level isDelete isPrim
    else setKeyCore s nodeId key newValue level isDelete isPrim

/-- `set(node, newValue)`: a root node (no parent) writes the root slot
via the `symbolUndef` key; otherwise the write goes to the parent at the
node's key. -/
def set (s : GState) (nodeId : Nat) (newValue : SetVal) : GState × SetOutcome :=
  match s.node? nodeId with
  | some n =>
    match n.parent with
    | some p => setKey s p (.key n.key) newValue none
    | none => setKey s nodeId .undefSym newValue none
  | none => setKey s nodeId .undefSym newValue none

/-- `deleteFn(node, key?)`: with no key, delete the node itself from its
parent (the parent node at the node's key); implemented as a `setKey`
with the delete sentinel and level `-1`.  (With no key and no parent the
JS `key` stays `undefined` and is coerced to the property name
`"undefined"` on the container accesses.) -/
def deleteFn (s : GState) (nodeId : Nat) (key? : Option Key) : GState × SetOutcome :=
  match key? with
  | some k => setKey s nodeId (.key k) .sentinel (some (-1))
  | none =>
    match s.node? nodeId with
    | some n =>
      match n.parent with
      | some p => setKey s p (.key n.key) .sentinel (some (-1))
      | none => setKey s nodeId (.key (.str "undefined")) .sentinel (some (-1))
    | none => setKey s nodeId (.key (.str "undefined")) .sentinel (some (-1))

/-! ### The proxy traps (`set`, `deleteProperty`) -/

/-- Result of a property trap: `allowed` (returned `true` after
delegating to the pipeline), `refused` (returned `false`), `reflected`
(the `inSet` branch: a `Reflect` operation on the node object itself,
internal bookkeeping outside the value tree), or `threw` (an exception
from the pipeline propagated out of the trap). -/
inductive TrapResult where
  | allowed
  | refused
  | reflected
  | threw
deriving DecidableEq, Repr

/-- The proxy `set` trap: allowed when inside an internal write
(`inSet`); in safe mode (outside `assign`) refused entirely in strict
mode, and refused in default mode when the existing child value or the
new value is structural; otherwise delegates to `setKey` and returns
`true`. -/
def proxySet (s : GState) (nodeId : Nat) (prop : Key) (value : Value) : GState × TrapResult :=
  if s.inSet then (s, .reflected)
  else if !s.inAssign && decide (s.root.safeMode ≠ 0) then
    if s.root.safeMode = 2 then (s, .refused)
    else
      let (s1, cid) := getChildNode s nodeId prop
      let existing := getNodeValue s1 cid
      if existing.isObj || existing.isArr || value.isObj || value.isArr then (s1, .refused)
      else
        match setKey s1 nodeId (.key prop) (.v value) none with
        | (s2, .ok _) => (s2, .allowed)
        | (s2, _) => (s2, .threw)
  else
    match setKey s nodeId (.key prop) (.v value) none with
    | (s2, .ok _) => (s2, .allowed)
    | (s2, _) => (s2, .threw)

/-- The proxy `deleteProperty` trap: allowed (as a `Reflect` delete on
the node object) when inside an internal write; refused whenever the
root's safe mode is non-zero; otherwise logs the accidental-mutation
warning in development mode during tracked evaluation and routes to
`deleteFn`, returning `true`. -/
def proxyDelete (s : GState) (nodeId : Nat) (prop : Key) : GState × TrapResult :=
  if s.inSet then (s, .reflected)
  else if s.root.safeMode ≠ 0 then (s, .refused)
  else
    let s := if s.devMode && s.isTracking then emit s .warnImplicitDelete else s
    match deleteFn s nodeId (some prop) with
    | (s2, .ok _) => (s2, .allowed)
    | (s2, _) => (s2, .threw)

/-! ### `assign` -/

inductive AssignOutcome where
  | ok
  | threw
deriving DecidableEq, Repr

/-- `Object.assign(proxy, value)`: one proxy `set` trap call per field in
order; an exception from the pipeline propagates immediately. -/
def assignLoop (nodeId : Nat) : GState → List (String × Value) → GState × AssignOutcome
  | s, [] => (s, .ok)
  | s, (k, v) :: fs =>
    match proxySet s nodeId (.str k) v with
    | (s', .threw) => (s', .threw)
    | (s', _) => assignLoop nodeId s' fs

/-- `assign(node, value)`: begin a batch, coerce a primitive root value
to an empty object, raise `inAssign` for the duration of the
`Object.assign`, then end the batch.  The source has no try/finally, so
an exception leaves `inAssign` raised and the batch open. -/
def assign (s : GState) (nodeId : Nat) (value : List (String × Value)) : GState × AssignOutcome :=
  let s := beginBatch s
  let s := if s.root.val.isPrimitive then { s with root := { s.root with val := .obj [] } } else s
  let s := { s with inAssign := true }
  match assignLoop nodeId s value with
  | (s, .ok) =>
    let s := { s with inAssign := false }
    (endBatch s, .ok)
  | (s, .threw) => (s, .threw)

/-! ### Concrete example states (used by witnesses and counterexamples) -/

/-- `{id: 1, name: "a"}` — a flat record with a stable identity field. -/
def exA : Value := .obj [("id", .num 1), ("name", .str "a")]

/-- `{id: 2, name: "b"}`. -/
def exB : Value := .obj [("id", .num 2), ("name", .str "b")]

/-- An observable `{items: [exA, exB]}` with safe mode off: node 0 is the
root, node 1 is `items` (with listeners), nodes 2 and 3 are the element
nodes at indices 0 and 1 (with listeners). -/
def exItems : GState :=
  { root := { val := .obj [("items", .arr [exA, exB])], safeMode := 0, locked := false },
    nodes := [(0, { id := 0, parent := none, key := .str "", children := [(.str "items", 1)],
                    listeners := false }),
              (1, { id := 1, parent := some 0, key := .str "items",
                    children := [(.idx 0, 2), (.idx 1, 3)], listeners := true }),
              (2, { id := 2, parent := some 1, key := .idx 0, children := [], listeners := true }),
              (3, { id := 3, parent := some 1, key := .idx 1, children := [], listeners := true })],
    nextId := 4, events := [], inSet := false, inAssign := false,
    batchDepth := 0, devMode := false, isTracking := false }

/-- An observable `{a: 1, b: 2}` with safe mode off; node 1 is the child
node for key `a`. -/
def exAB : GState :=
  { root := { val := .obj [("a", .num 1), ("b", .num 2)], safeMode := 0, locked := false },
    nodes := [(0, { id := 0, parent := none, key := .str "", children := [(.str "a", 1)],
                    listeners := false }),
              (1, { id := 1, parent := some 0, key := .str "a", children := [], listeners := true })],
    nextId := 2, events := [], inSet := false, inAssign := false,
    batchDepth := 0, devMode := false, isTracking := false }

/-- `exAB` in default safe mode (safeMode 1). -/
def exABSafe : GState := { exAB with root := { exAB.root with safeMode := 1 } }

/-- `exAB` in strict safe mode (safeMode 2). -/
def exABStrict : GState := { exAB with root := { exAB.root with safeMode := 2 } }

/-- `exAB` with the root locked. -/
def exABLocked : GState := { exAB with root := { exAB.root with locked := true } }

/-- A locked primitive-root wrapper holding `10`. -/
def exPrimLocked : PrimState :=
  { val := .num 10, locked := true, activate := none, tracked := 0, notifs := [], updaterArgs := [] }

/-- An unlocked primitive-root wrapper holding `10` with a pending
activate hook that hydrates the value to `99`. -/
def exPrimActivate : PrimState :=
  { val := .num 10, locked := false, activate := some (fun _ => .num 99), tracked := 0,
    notifs := [], updaterArgs := [] }

/-- An unlocked primitive-root wrapper holding `10`, no activate hook. -/
def exPrim : PrimState :=
  { val := .num 10, locked := false, activate := none, tracked := 0, notifs := [], updaterArgs := [] }

/-! ### Auxiliary predicates used by the theorems -/

/-- Whether an event is a direct child notification (`doNotify`). -/
def Event.isDoNotify : Event → Bool
  | .doNotifyEv _ _ _ _ _ => true
  | _ => false

/-- A well-formed key path into a value: every step passes through a
container that actually owns the key (so the JS reference walk and the
path recomputation of the embedding agree), ending at a present value. -/
def Value.pathOk : Value → List Key → Bool
  | v, [] => decide (v ≠ .undef)
  | v, k :: ks => (v.isObj || v.isArr) && v.hasOwn k && (v.get? k).pathOk ks

/-- Field names of an object are unique (JS objects cannot hold
duplicate keys); trivially true for non-objects. -/
def Value.nodupKeys : Value → Bool
  | .obj fs => decide (fs.map Prod.fst).Nodup
  | _ => true

/-- C6's specification side, following the claim's words: begin a
batch, coerce a primitive root value to an empty object, one
write-pipeline `setKey` per key of the partial with `inAssign` (the
relaxation of the safe-mode write restriction) raised for the duration,
then end the batch. -/
def assignSpec (s : GState) (nodeId : Nat) (value : List (String × Value)) : GState :=
  let s := beginBatch s
  let s := if s.root.val.isPrimitive then { s with root := { s.root with val := .obj [] } } else s
  let s := { s with inAssign := true }
  let s := value.foldl (fun s kv => (setKey s nodeId (.key (.str kv.1)) (.v kv.2) none).1) s
  let s := { s with inAssign := false }
  endBatch s

/-- A flat data value: a primitive, or an object all of whose fields are
primitive (the `{id, ...}` records of the array-move scenarios). -/
def flatV : Value → Bool
  | .obj fs => fs.all (fun kv => kv.2.isPrimitive)
  | v => v.isPrimitive

/-- Footprint of a diff step rooted at node `x`: previously existing
node ids other than `x` are untouched; `x` itself can at most have its
children map replaced (its id, parent, key and listeners survive);
fresh ids may be allocated. -/
def FootStep (x : Nat) (s s' : GState) : Prop :=
  s.nextId ≤ s'.nextId ∧
  (∀ q, q ≠ x → q < s.nextId → s'.node? q = s.node? q) ∧
  (∀ n, s.node? x = some n → ∃ ch, s'.node? x = some { n with children := ch })

/-- The frame guarantee of the recursive diff: the root store and the
module-level flags survive, and the event log only grows by direct
child notifications (`doNotify`). -/
def Calm (s t : GState) : Prop :=
  t.root = s.root ∧ t.inSet = s.inSet ∧ t.inAssign = s.inAssign ∧
  t.batchDepth = s.batchDepth ∧ t.devMode = s.devMode ∧ t.isTracking = s.isTracking ∧
  ∃ es, t.events = s.events ++ es ∧ es.all Event.isDoNotify = true

/-- Well-formedness of the identity → previous-index map under
construction (C2): every recorded previous index is below the write
cursor, and no two entries share an index (each loop iteration writes
its own index, so the map is injective on indices). -/
def kmProp (i : Nat) (km : List (Value × Nat)) : Prop :=
  (∀ e ∈ km, e.2 < i) ∧ ∀ e1 ∈ km, ∀ e2 ∈ km, e1.2 = e2.2 → e1.1 = e2.1

/-- C2: invariant of the parent node through the main per-key pass: the
parent is intact up to its children map, and every entry of that map is
an allocated id that is neither the parent itself nor — except at the
previous index `j` — the tracked child `cj`. -/
def ParentInv (s0 : GState) (pid : Nat) (pn : Node) (cj : Nat) (j : Nat) (t : GState) : Prop :=
  s0.nextId ≤ t.nextId ∧
  ∃ ch, t.node? pid = some { pn with children := ch } ∧
    ∀ kk c, alGet ch kk = some c →
      c < t.nextId ∧ c ≠ pid ∧ (kk ≠ .idx j → c ≠ cj)

/-- C2 loop invariant of the main per-key pass before the moved
element's index `k` is processed: the parent invariant holds, the
children map still reaches the original child `cj` at the previous
index `j`, the child node `cj` is intact up to its own children map,
and no pending reparenting is keyed at the new index `k`. -/
def MovePre (s0 : GState) (pid : Nat) (pn : Node) (cj : Nat) (cn : Node) (j k : Nat)
    (acc : LoopAcc) : Prop :=
  ParentInv s0 pid pn cj j acc.s ∧
  (∀ ch, acc.s.node? pid = some { pn with children := ch } →
    alGet ch (.idx j) = some cj) ∧
  (∃ chc, acc.s.node? cj = some { cn with children := chc }) ∧
  ∀ e ∈ acc.moved, e.1 ≠ Key.idx k

/-- C2 loop invariant after the moved element's index `k` was
processed: the child node `cj` now carries the new key `idx k` (its id,
parent link and listeners flag untouched), and the pending reparentings
contain the entry `(idx k, cj)` with no later entry for that key, so
the post-loop application of the moves binds the parent's children map
at `idx k` to `cj`. -/
def MovePost (s0 : GState) (pid : Nat) (pn : Node) (cj : Nat) (cn : Node) (j k : Nat)
    (acc : LoopAcc) : Prop :=
  ParentInv s0 pid pn cj j acc.s ∧
  (∃ chc, acc.s.node? cj =
    some { id := cn.id, parent := cn.parent, key := Key.idx k, children := chc,
           listeners := cn.listeners }) ∧
  ∃ m1 m2, acc.moved = m1 ++ (Key.idx k, cj) :: m2 ∧ ∀ e ∈ m2, e.1 ≠ Key.idx k

/-! ### Small frame lemmas about the graph helpers -/

theorem alGet_alSet_self {α β : Type} [DecidableEq α] (l : List (α × β)) (x : α) (y : β) :
    alGet (alSet l x y) x = some y := by
  induction l with
  | nil => simp [alGet, alSet]
  | cons hd tl ih =>
    obtain ⟨a, b⟩ := hd
    by_cases h : a = x <;> simp [alGet, alSet, h, ih]

theorem alGet_alSet_ne {α β : Type} [DecidableEq α] (l : List (α × β)) (x z : α) (y : β)
    (h : z ≠ x) : alGet (alSet l x y) z = alGet l z := by
  induction l with
  | nil => simp [alGet, alSet, Ne.symm h]
  | cons hd tl ih =>
    obtain ⟨a, b⟩ := hd
    by_cases ha : a = x
    · subst ha
      simp [alGet, alSet, Ne.symm h]
    · simp only [alSet, if_neg ha]
      by_cases hz : a = z <;> simp [alGet, hz, ih]

theorem getChildNode_frame (s : GState) (p : Nat) (k : Key) :
    ((getChildNode s p k).1).root = s.root ∧ ((getChildNode s p k).1).events = s.events ∧
    ((getChildNode s p k).1).inSet = s.inSet ∧ ((getChildNode s p k).1).inAssign = s.inAssign ∧
    ((getChildNode s p k).1).batchDepth = s.batchDepth ∧
    ((getChildNode s p k).1).devMode = s.devMode ∧
    ((getChildNode s p k).1).isTracking = s.isTracking := by
  unfold getChildNode
  split
  · simp
  · split <;> simp [setNode]

/-! ### C1 — locked writes are rejected atomically -/

/-- C1: a write against a locked root — `setKey` (every write of the
proxy write pipeline, including each per-key write a multi-key
`Object.assign` issues through the proxy `set` trap) or `set` on a
primitive-root wrapper — throws the locked-observable error
synchronously, leaving the stored value tree unchanged and dispatching
no listener notification; since the rejection happens before any
mutation, no partial field is ever written. -/
theorem locked_write_rejected :
    (∀ (s : GState) (nid : Nat) (k : SKey) (nv : SetVal) (lvl : Option Int),
      s.root.locked = true → setKey s nid k nv lvl = (s, .lockedError)) ∧
    (∀ (ps : PrimState) (arg : PrimArg), ps.locked = true →
      (primSet ps arg).2 = true ∧ (primSet ps arg).1.val = ps.val ∧
      (primSet ps arg).1.notifs = ps.notifs) ∧
    (∀ (s : GState) (nid : Nat) (prop : Key) (v : Value),
      s.root.locked = true → s.inSet = false →
      (proxySet s nid prop v).2 ≠ .allowed ∧
      (proxySet s nid prop v).1.root.val = s.root.val ∧
      (proxySet s nid prop v).1.events = s.events) := by
  refine ⟨?_, ?_, ?_⟩
  · intro s nid k nv lvl h
    simp [setKey, h]
  · intro ps arg h
    cases arg <;> simp [primSet, h]
  · intro s nid prop v h hin
    have hlock : ∀ (s1 : GState) (key : SKey) (x : SetVal),
        s1.root.locked = true → setKey s1 nid key x none = (s1, .lockedError) := by
      intro s1 key x h1
      simp [setKey, h1]
    unfold proxySet
    rw [hin]
    simp only [Bool.false_eq_true, if_false]
    by_cases hsm : (!s.inAssign && decide (s.root.safeMode ≠ 0)) = true
    · rw [if_pos hsm]
      by_cases h2 : s.root.safeMode = 2
      · simp [h2]
      · rw [if_neg h2]
        obtain ⟨hr, he, -⟩ := getChildNode_frame s nid prop
        by_cases hstruct :
            ((getNodeValue (getChildNode s nid prop).1 (getChildNode s nid prop).2).isObj ||
              (getNodeValue (getChildNode s nid prop).1 (getChildNode s nid prop).2).isArr ||
              v.isObj || v.isArr) = true
        · simp [hstruct, hr, he]
        · rw [Bool.not_eq_true] at hstruct
          rw [hstruct]
          simp only [Bool.false_eq_true, if_false]
          rw [hlock (getChildNode s nid prop).1 (.key prop) (.v v) (by rw [hr, h])]
          simp [hr, he]
    · rw [if_neg hsm, hlock s (.key prop) (.v v) h]
      simp

/-- Witness for C1 at concrete inputs: a locked object root and a locked
primitive root. -/
theorem locked_write_rejected_witness :
    setKey exABLocked 0 (.key (.str "a")) (.v (.num 9)) none = (exABLocked, .lockedError) ∧
    (primSet exPrimLocked (.lit (.num 3))).2 = true ∧
    (primSet exPrimLocked (.lit (.num 3))).1.val = exPrimLocked.val ∧
    (proxySet exABLocked 0 (.str "a") (.num 9)).2 ≠ .allowed := by
  refine ⟨?_, ?_, ?_, ?_⟩
  · exact locked_write_rejected.1 exABLocked 0 (.key (.str "a")) (.v (.num 9)) none rfl
  · exact (locked_write_rejected.2.1 exPrimLocked (.lit (.num 3)) rfl).1
  · exact (locked_write_rejected.2.1 exPrimLocked (.lit (.num 3)) rfl).2.1
  · exact (locked_write_rejected.2.2 exABLocked 0 (.str "a") (.num 9) rfl rfl).1

/-! ### C8, C9, C10 — the primitive-root wrapper -/

/-- C8: `peek()` invokes the root's `activate` hook if present and then
clears it, so the hook runs at most once across all reads (a second
`peek` is pure), and returns the raw root value without recording any
tracking; `get()` records one tracked dependency on the node and then
returns exactly what `peek()` returns. -/
theorem prim_peek_get_contract :
    (∀ (s : PrimState) (f : Value → Value), s.activate = some f →
      primPeek s = (f s.val, { s with val := f s.val, activate := none })) ∧
    (∀ s : PrimState, s.activate = none → primPeek s = (s.val, s)) ∧
    (∀ s : PrimState,
      (primPeek s).2.activate = none ∧ (primPeek s).2.tracked = s.tracked ∧
      primPeek (primPeek s).2 = ((primPeek s).1, (primPeek s).2)) ∧
    (∀ s : PrimState,
      primGet s = primPeek { s with tracked := s.tracked + 1 } ∧
      (primGet s).1 = (primPeek s).1 ∧ (primGet s).2.tracked = s.tracked + 1) := by
  refine ⟨?_, ?_, ?_, ?_⟩
  · intro s f h
    simp [primPeek, h]
  · intro s h
    simp [primPeek, h]
  · intro s
    cases h : s.activate <;> simp [primPeek, h]
  · intro s
    cases h : s.activate <;> simp [primPeek, primGet, h]

/-- Witness for C8 at a concrete wrapper with a pending activate hook. -/
theorem prim_peek_get_contract_witness :
    primPeek exPrimActivate =
      (.num 99, { exPrimActivate with val := .num 99, activate := none }) ∧
    (primPeek exPrimActivate).2.tracked = exPrimActivate.tracked ∧
    (primGet exPrimActivate).1 = (primPeek exPrimActivate).1 := by
  refine ⟨?_, ?_, ?_⟩
  · exact prim_peek_get_contract.1 exPrimActivate (fun _ => .num 99) rfl
  · exact ((prim_peek_get_contract.2.2.1) exPrimActivate).2.1
  · exact ((prim_peek_get_contract.2.2.2) exPrimActivate).2.1

/-- C9: on a locked primitive-root wrapper, `set` with an updater
function still invokes the updater with the current root value before
the locked error is thrown (the invocation is recorded in
`updaterArgs`); the root value and the notification log are unchanged. -/
theorem prim_set_locked_invokes_updater :
    ∀ (s : PrimState) (f : Value → Value), s.locked = true →
      primSet s (.updater f) = ({ s with updaterArgs := s.updaterArgs ++ [s.val] }, true) := by
  intro s f h
  simp [primSet, h]

/-- Witness for C9: the identity updater on a locked wrapper. -/
theorem prim_set_locked_invokes_updater_witness :
    primSet exPrimLocked (.updater (fun v => v)) =
      ({ exPrimLocked with updaterArgs := [.num 10] }, true) :=
  prim_set_locked_invokes_updater exPrimLocked (fun v => v) rfl

/-- C10: on an unlocked primitive-root wrapper, `set(v)` stores `v` and
dispatches exactly one notification at level 0 with the previous value,
even when `v` equals the current value (no equality check suppresses the
notification; the previous value passed to listeners then equals the new
value). -/
theorem prim_set_always_notifies :
    ∀ (s : PrimState) (v : Value), s.locked = false →
      primSet s (.lit v) = ({ s with val := v, notifs := s.notifs ++ [(v, s.val, 0)] }, false) := by
  intro s v h
  simp [primSet, h]

/-- Witness for C10: setting the current value `10` again still
dispatches a notification whose previous value equals the new value. -/
theorem prim_set_always_notifies_witness :
    primSet exPrim (.lit (.num 10)) =
      ({ exPrim with val := .num 10, notifs := [(.num 10, .num 10, 0)] }, false) :=
  prim_set_always_notifies exPrim (.num 10) rfl

/-! ### C5 — the delete trap and safe mode -/

/-- Counterexample to C5 as stated: in *default* safe mode (safeMode 1,
not strict), an implicit proxy delete is already refused — the trap
returns the falsy result and the state is untouched — whereas routing to
the write pipeline's delete operation would have removed the key from
the stored value. -/
theorem proxy_delete_default_mode_counterexample :
    exABSafe.root.safeMode = 1 ∧ exABSafe.inSet = false ∧
    proxyDelete exABSafe 0 (.str "a") = (exABSafe, .refused) ∧
    (deleteFn exABSafe 0 (some (.str "a"))).1.root.val ≠ exABSafe.root.val := by
  refine ⟨rfl, rfl, rfl, ?_⟩
  decide

/-- C5 as amended: an implicit property delete through the proxy
(outside an internal write) is refused whenever the root's safe mode is
non-zero — in default mode as well as strict mode — and only in
unrestricted mode does it route to the write pipeline's delete
operation, logging the developer warning first when a tracked evaluation
is in progress in a development build. -/
theorem proxy_delete_requires_unrestricted :
    ∀ (s : GState) (nid : Nat) (prop : Key), s.inSet = false →
      (s.root.safeMode ≠ 0 → proxyDelete s nid prop = (s, .refused)) ∧
      (s.root.safeMode = 0 →
        proxyDelete s nid prop =
          ((deleteFn (if s.devMode && s.isTracking then emit s .warnImplicitDelete else s)
              nid (some prop)).1,
           if (deleteFn (if s.devMode && s.isTracking then emit s .warnImplicitDelete else s)
                nid (some prop)).2.isOk then .allowed else .threw)) := by
  intro s nid prop hin
  constructor
  · intro hsm
    unfold proxyDelete
    rw [hin]
    simp [hsm]
  · intro hsm
    unfold proxyDelete
    rw [hin]
    simp only [Bool.false_eq_true, if_false, hsm, ne_eq, not_true_eq_false, if_false]
    rcases h : deleteFn (if s.devMode && s.isTracking then emit s .warnImplicitDelete else s)
        nid (some prop) with ⟨s2, o⟩
    cases o <;> simp [SetOutcome.isOk]

/-- Witness for the amended C5 at concrete inputs: refusal in default
mode, routing in unrestricted mode. -/
theorem proxy_delete_requires_unrestricted_witness :
    proxyDelete exABSafe 0 (.str "a") = (exABSafe, .refused) ∧
    proxyDelete exAB 0 (.str "a") =
      ((deleteFn exAB 0 (some (.str "a"))).1,
       if (deleteFn exAB 0 (some (.str "a"))).2.isOk then .allowed else .threw) := by
  constructor
  · exact (proxy_delete_requires_unrestricted exABSafe 0 (.str "a") rfl).1 (by decide)
  · exact (proxy_delete_requires_unrestricted exAB 0 (.str "a") rfl).2 rfl

/-! ### C4 — the set trap and safe mode -/

theorem setKeyCore_ok (s : GState) (nid : Nat) (key : SKey) (nv : SetVal)
    (lvl : Option Int) (d p : Bool) : (setKeyCore s nid key nv lvl d p).2.isOk = true := by
  unfold setKeyCore
  dsimp only
  split <;> rfl

/-- `setKey` returns the ok outcome whenever the root is not locked and
the write is not the primitive `value`-key unwrap of a parentless node
(for a plain-value argument, the unwrap condition is spelled out on the
argument). -/
theorem setKey_v_ok (s : GState) (nid : Nat) (key : SKey) (v : Value) (lvl : Option Int)
    (hl : s.root.locked = false)
    (hc : (v.isPrimitive && decide (key = SKey.key (.str "value"))
            && (getNodeValue s nid).isPrimitive) = false) :
    (setKey s nid key (.v v) lvl).2.isOk = true := by
  unfold setKey
  rw [hl]
  simp only [Bool.false_eq_true, if_false]
  simp only [SetVal.isPrim]
  rw [hc]
  simp only [Bool.false_eq_true, if_false]
  exact setKeyCore_ok ..

/-- C4: a direct property write through the proxy, outside an internal
write operation (`inSet` and `inAssign` both clear): in strict safe mode
it is refused for all values; in default safe mode it is refused exactly
when the existing child value or the new value is an object or array; in
both cases the refusal is a falsy trap result (never a thrown outcome)
and the stored value and notifications are untouched; otherwise the
write delegates to the write pipeline (`setKey`) and the trap returns
true exactly when the pipeline does not throw — in particular it does
return true whenever the root is unlocked and the write is not the
primitive `value`-key edge case. -/
theorem proxy_set_safe_modes :
    ∀ (s : GState) (nid : Nat) (prop : Key) (v : Value),
      s.inSet = false → s.inAssign = false →
      (s.root.safeMode = 2 → proxySet s nid prop v = (s, .refused)) ∧
      (s.root.safeMode = 1 →
        (((getNodeValue (getChildNode s nid prop).1 (getChildNode s nid prop).2).isObj ||
           (getNodeValue (getChildNode s nid prop).1 (getChildNode s nid prop).2).isArr ||
           v.isObj || v.isArr) = true →
          proxySet s nid prop v = ((getChildNode s nid prop).1, .refused) ∧
          (getChildNode s nid prop).1.root.val = s.root.val ∧
          (getChildNode s nid prop).1.events = s.events) ∧
        (((getNodeValue (getChildNode s nid prop).1 (getChildNode s nid prop).2).isObj ||
           (getNodeValue (getChildNode s nid prop).1 (getChildNode s nid prop).2).isArr ||
           v.isObj || v.isArr) = false →
          proxySet s nid prop v =
            ((setKey (getChildNode s nid prop).1 nid (.key prop) (.v v) none).1,
             if (setKey (getChildNode s nid prop).1 nid (.key prop) (.v v) none).2.isOk
             then .allowed else .threw))) ∧
      (s.root.safeMode = 0 →
        proxySet s nid prop v =
          ((setKey s nid (.key prop) (.v v) none).1,
           if (setKey s nid (.key prop) (.v v) none).2.isOk then .allowed else .threw)) ∧
      (s.root.safeMode = 0 → s.root.locked = false →
        (v.isPrimitive && decide (SKey.key prop = SKey.key (.str "value"))
          && (getNodeValue s nid).isPrimitive) = false →
        (proxySet s nid prop v).2 = .allowed) := by
  intro s nid prop v hin hia
  have hout : ∀ (s1 : GState),
      (match setKey s1 nid (.key prop) (.v v) none with
        | (s2, .ok _) => (s2, TrapResult.allowed)
        | (s2, _) => (s2, TrapResult.threw)) =
      ((setKey s1 nid (.key prop) (.v v) none).1,
       if (setKey s1 nid (.key prop) (.v v) none).2.isOk then .allowed else .threw) := by
    intro s1
    rcases h : setKey s1 nid (.key prop) (.v v) none with ⟨s2, o⟩
    cases o <;> simp [SetOutcome.isOk]
  have hdeleg : s.root.safeMode = 0 →
      proxySet s nid prop v =
        ((setKey s nid (.key prop) (.v v) none).1,
         if (setKey s nid (.key prop) (.v v) none).2.isOk then .allowed else .threw) := by
    intro hsm
    unfold proxySet
    rw [hin, hia, hsm]
    norm_num
    exact hout s
  refine ⟨?_, ?_, hdeleg, ?_⟩
  · intro hsm
    unfold proxySet
    rw [hin, hia]
    simp [hsm]
  · intro hsm
    constructor
    · intro hstruct
      obtain ⟨hr, he, -⟩ := getChildNode_frame s nid prop
      unfold proxySet
      rw [hin, hia, hsm]
      norm_num
      simp [hr, he]
      intro h1 h2 h3 h4
      rw [h1, h2, h3, h4] at hstruct
      simp at hstruct
    · intro hstruct
      unfold proxySet
      rw [hin, hia, hsm]
      norm_num
      have hcond : ¬ ((((getNodeValue (getChildNode s nid prop).1
            (getChildNode s nid prop).2).isObj = true ∨
          (getNodeValue (getChildNode s nid prop).1
            (getChildNode s nid prop).2).isArr = true) ∨
          v.isObj = true) ∨ v.isArr = true) := by
        intro h
        rcases h with ((h | h) | h) | h <;> rw [h] at hstruct <;> simp at hstruct
      rw [if_neg hcond]
      exact hout _
  · intro hsm hl hc
    rw [hdeleg hsm]
    have hok := setKey_v_ok s nid (.key prop) v none hl hc
    simp [hok]

/-- Witness for C4 at concrete inputs: strict refusal, default-mode
refusal of a structural value, default-mode delegation of a primitive
write, and unrestricted delegation returning true. -/
theorem proxy_set_safe_modes_witness :
    proxySet exABStrict 0 (.str "a") (.num 9) = (exABStrict, .refused) ∧
    proxySet exABSafe 0 (.str "a") (.obj []) = ((getChildNode exABSafe 0 (.str "a")).1, .refused) ∧
    (proxySet exAB 0 (.str "a") (.num 9)).2 = .allowed := by
  refine ⟨?_, ?_, ?_⟩
  · exact (proxy_set_safe_modes exABStrict 0 (.str "a") (.num 9) rfl rfl).1 rfl
  · exact (((proxy_set_safe_modes exABSafe 0 (.str "a") (.obj []) rfl rfl).2.1) rfl
      |>.1 (by decide)).1
  · exact (proxy_set_safe_modes exAB 0 (.str "a") (.num 9) rfl rfl).2.2.2 rfl rfl (by decide)

/-! ### The diff's frame: `Calm` -/

theorem calm_refl (s : GState) : Calm s s :=
  ⟨rfl, rfl, rfl, rfl, rfl, rfl, [], by simp, rfl⟩

theorem calm_trans {s t u : GState} (h1 : Calm s t) (h2 : Calm t u) : Calm s u := by
  obtain ⟨r1, i1, a1, b1, d1, k1, es1, e1, all1⟩ := h1
  obtain ⟨r2, i2, a2, b2, d2, k2, es2, e2, all2⟩ := h2
  refine ⟨r2.trans r1, i2.trans i1, a2.trans a1, b2.trans b1, d2.trans d1, k2.trans k1,
    es1 ++ es2, ?_, ?_⟩
  · rw [e2, e1, List.append_assoc]
  · simp [List.all_append, all1, all2]

theorem calm_setNode (s : GState) (i : Nat) (n : Node) : Calm s (setNode s i n) :=
  ⟨rfl, rfl, rfl, rfl, rfl, rfl, [], by simp [setNode], rfl⟩

theorem calm_getChildNode (s : GState) (p : Nat) (k : Key) : Calm s (getChildNode s p k).1 := by
  unfold getChildNode
  split
  · exact calm_refl s
  · split
    · exact calm_refl s
    · exact calm_trans (calm_trans
        (⟨rfl, rfl, rfl, rfl, rfl, rfl, [], by simp, rfl⟩ :
          Calm s { s with nextId := s.nextId + 1 })
        (calm_setNode _ _ _)) (calm_setNode _ _ _)

theorem calm_setNodeKey (s : GState) (i : Nat) (k : Key) : Calm s (setNodeKey s i k) := by
  unfold setNodeKey
  split
  · exact calm_setNode _ _ _
  · exact calm_refl s

theorem calm_emit_doNotify (s : GState) (a : Nat) (b c : Value) (d : Int) (f : Bool) :
    Calm s (emit s (.doNotifyEv a b c d f)) :=
  ⟨rfl, rfl, rfl, rfl, rfl, rfl, [.doNotifyEv a b c d f], by simp [emit], by
    simp [Event.isDoNotify]⟩

theorem foldl_preserve {α β : Type} (P : β → Prop) (f : β → α → β) :
    ∀ (l : List α) (b : β), P b → (∀ b a, P b → a ∈ l → P (f b a)) → P (l.foldl f b) := by
  intro l
  induction l with
  | nil => intro b hb _; simpa using hb
  | cons hd tl ih =>
    intro b hb hf
    simp only [List.foldl_cons]
    exact ih (f b hd) (hf b hd hb (by simp)) (fun b a hb ha => hf b a hb (by simp [ha]))

theorem calm_applyMoved (s : GState) (p : Nat) (m : List (Key × Nat)) :
    Calm s (applyMoved s p m) := by
  unfold applyMoved
  refine foldl_preserve (Calm s) _ m s (calm_refl s) ?_
  intro b a hb _
  refine calm_trans hb ?_
  split
  · exact calm_setNode _ _ _
  · exact calm_refl b

theorem calm_ite (s : GState) (c : Prop) [Decidable c] (a b : GState)
    (ha : Calm s a) (hb : Calm s b) : Calm s (if c then a else b) := by
  split
  · exact ha
  · exact hb

theorem calm_moveStep (pid : Nat) (o pv : Value) (km : Option (List (Value × Nat)))
    (iad : Bool) (acc : LoopAcc) (key : Key) (value id : Value) (isDiff : Bool) :
    Calm acc.s (moveStep pid o pv km iad acc key value id isDiff).1 := by
  unfold moveStep
  dsimp only
  split
  · split
    · split
      · split
        · exact calm_trans (calm_getChildNode _ _ _)
            (calm_trans (calm_getChildNode _ _ _) (calm_setNodeKey _ _ _))
        · exact calm_getChildNode _ _ _
      · exact calm_getChildNode _ _ _
    · exact calm_getChildNode _ _ _
  · exact calm_getChildNode _ _ _

theorem calm_removalBody (recur : GState → Nat → Value → Value → GState × Bool)
    (hrec : ∀ s i o p, Calm s (recur s i o p).1) (pid : Nat) (o pv : Value)
    (s : GState) (key : String) : Calm s (removalBody recur pid o pv s key) := by
  unfold removalBody
  dsimp only
  refine calm_ite s _ _ _ (calm_refl s) ?_
  have h2 : Calm s (if (pv.get? (.str key)).isPrimitive = true
      then (getChildNode s pid (.str key)).1
      else (recur (getChildNode s pid (.str key)).1 (getChildNode s pid (.str key)).2
            .undef (pv.get? (.str key))).1) :=
    calm_ite s _ _ _ (calm_getChildNode s pid (.str key))
      (calm_trans (calm_getChildNode s pid (.str key)) (hrec _ _ _ _))
  exact calm_ite s _ _ _ (calm_trans h2 (calm_emit_doNotify _ _ _ _ _ _)) h2

theorem calm_mainBody (recur : GState → Nat → Value → Value → GState × Bool)
    (hrec : ∀ s i o p, Calm s (recur s i o p).1) (pid : Nat) (o pv : Value)
    (idf : Option String) (km : Option (List (Value × Nat))) (iad : Bool)
    (acc : LoopAcc) (key : Key) :
    Calm acc.s (mainBody recur pid o pv idf km iad acc key).s := by
  unfold mainBody
  dsimp only
  split
  · refine calm_ite acc.s _ _ _ ?_ ?_
    · refine calm_trans ?_ (calm_emit_doNotify _ _ _ _ _ _)
      exact calm_ite acc.s _ _ _
        (calm_trans (calm_moveStep _ _ _ _ _ _ _ _ _ _) (hrec _ _ _ _))
        (calm_moveStep _ _ _ _ _ _ _ _ _ _)
    · exact calm_ite acc.s _ _ _
        (calm_trans (calm_moveStep _ _ _ _ _ _ _ _ _ _) (hrec _ _ _ _))
        (calm_moveStep _ _ _ _ _ _ _ _ _ _)
  · exact calm_refl acc.s

theorem calm_mainPart (recur : GState → Nat → Value → Value → GState × Bool)
    (hrec : ∀ s i o p, Calm s (recur s i o p).1) (s : GState) (pid : Nat) (o pv : Value)
    (idf : Option String) (km : Option (List (Value × Nat))) :
    Calm s (mainPart recur s pid o pv idf km).1 := by
  unfold mainPart
  dsimp only
  split
  · refine calm_trans ?_ (calm_applyMoved _ _ _)
    refine foldl_preserve (fun acc : LoopAcc => Calm s acc.s) _ _ _ (calm_refl s) ?_
    intro b a hb _
    exact calm_trans hb (calm_mainBody recur hrec pid o pv idf km _ b a)
  · split
    · exact calm_refl s
    · exact calm_refl s

theorem updateNodes_calm : ∀ (fuel : Nat) (s : GState) (x : Nat) (o pv : Value),
    Calm s (updateNodes fuel s x o pv).1 := by
  intro fuel
  induction fuel with
  | zero => intro s x o pv; exact calm_refl s
  | succ f ih =>
    intro s x o pv
    unfold updateNodes
    dsimp only
    split
    · exact calm_mainPart _ (fun s i o p => ih s i o p) s x o pv _ _
    · have hrem : Calm s (if pv.truthy = true
          then pv.jsKeysStr.foldl
            (removalBody (fun s i o p => updateNodes f s i o p) x o pv) s
          else s) := by
        split
        · refine foldl_preserve (Calm s) _ pv.jsKeysStr s (calm_refl s) ?_
          intro b a hb _
          exact calm_trans hb
            (calm_removalBody _ (fun s i o p => ih s i o p) x o pv b a)
        · exact calm_refl s
      exact calm_trans hrem
        (calm_mainPart _ (fun s i o p => ih s i o p) _ x o pv _ _)

/-! ### C3 — notify levels of the write pipeline -/

theorem notifyPhase_spec (s : GState) (cid : Nat) (resolved prev : Value)
    (lvlArg : Option Int) (isPrim isRootB : Bool) :
    ∃ ds : List Event, ds.all Event.isDoNotify = true ∧
      (notifyPhase s cid resolved prev lvlArg isPrim isRootB).2.childId = cid ∧
      (notifyPhase s cid resolved prev lvlArg isPrim isRootB).2.newValue = resolved ∧
      (notifyPhase s cid resolved prev lvlArg isPrim isRootB).2.prevValue = prev ∧
      (notifyPhase s cid resolved prev lvlArg isPrim isRootB).2.notified =
        (!isPrim || decide (resolved ≠ prev)) ∧
      (notifyPhase s cid resolved prev lvlArg isPrim isRootB).2.level =
        (if ((match lvlArg with
              | some l => decide (l ≠ 0)
              | none => decide (prev = .undef) : Bool)) then (-1 : Int)
         else if (notifyPhase s cid resolved prev lvlArg isPrim isRootB).2.hasADiff then 0
         else 1) ∧
      ((!isPrim || !prev.isPrimitive) = false →
        (notifyPhase s cid resolved prev lvlArg isPrim isRootB).2.hasADiff = isPrim) ∧
      ((!isPrim || !prev.isPrimitive) = true →
        (notifyPhase s cid resolved prev lvlArg isPrim isRootB).2.hasADiff =
          (updateNodes (sizeV resolved + sizeV prev + 2) (beginBatch s) cid resolved prev).2) ∧
      (notifyPhase s cid resolved prev lvlArg isPrim isRootB).1.events =
        s.events ++ [.beginBatchEv] ++ ds ++
          (if (notifyPhase s cid resolved prev lvlArg isPrim isRootB).2.notified then
            [.notifyEv cid resolved prev
              (notifyPhase s cid resolved prev lvlArg isPrim isRootB).2.level
              (notifyPhase s cid resolved prev lvlArg isPrim isRootB).2.whenOptimizedOnlyIf]
           else []) ++ [.endBatchEv] := by
  obtain ⟨-, -, -, -, -, -, ds0, hev0, hall0⟩ :=
    updateNodes_calm (sizeV resolved + sizeV prev + 2) (beginBatch s) cid resolved prev
  by_cases hcond : (!isPrim || !prev.isPrimitive) = true
  · refine ⟨ds0, hall0, rfl, rfl, rfl, rfl, rfl, ?_, ?_, ?_⟩
    · intro h
      rw [h] at hcond
      exact absurd hcond (by simp)
    · intro _
      unfold notifyPhase
      dsimp only
      rw [hcond]
      simp
    · show (GState.events _) = _
      unfold notifyPhase
      dsimp only
      rw [hcond]
      simp only [eq_self_iff_true, if_true]
      by_cases hnot : (!isPrim || decide (resolved ≠ prev)) = true
      · rw [hnot]
        simp only [eq_self_iff_true, if_true, endBatch, emit]
        rw [hev0]
        simp [beginBatch, List.append_assoc]
      · rw [Bool.not_eq_true] at hnot
        rw [hnot]
        simp only [Bool.false_eq_true, if_false, endBatch]
        rw [hev0]
        simp [beginBatch, List.append_assoc]
  · rw [Bool.not_eq_true] at hcond
    refine ⟨[], by simp, rfl, rfl, rfl, rfl, rfl, ?_, ?_, ?_⟩
    · intro _
      unfold notifyPhase
      dsimp only
      rw [hcond]
      simp
    · intro h
      rw [h] at hcond
      exact absurd hcond (by simp)
    · show (GState.events _) = _
      unfold notifyPhase
      dsimp only
      rw [hcond]
      simp only [Bool.false_eq_true, if_false]
      by_cases hnot : (!isPrim || decide (resolved ≠ prev)) = true
      · rw [hnot]
        simp only [eq_self_iff_true, if_true, endBatch, emit]
        simp [beginBatch, List.append_assoc]
      · rw [Bool.not_eq_true] at hnot
        rw [hnot]
        simp only [Bool.false_eq_true, if_false, endBatch]
        simp [beginBatch, List.append_assoc]

set_option maxHeartbeats 1000000 in
theorem setKeyCore_shape (s : GState) (nid : Nat) (key : SKey) (x : Value)
    (lvl : Option Int) (d p : Bool) :
    ∃ (s0 : GState) (cid : Nat) (prev : Value) (b : Bool),
      s0.events = s.events ∧
      setKeyCore s nid key (.v x) lvl d p =
        ((notifyPhase s0 cid x prev lvl p b).1, .ok (notifyPhase s0 cid x prev lvl p b).2) := by
  unfold setKeyCore
  dsimp only
  split
  · refine ⟨_, _, _, _, ?_, rfl⟩
    rfl
  · refine ⟨_, _, _, _, ?_, rfl⟩
    obtain ⟨-, hev, -⟩ := getChildNode_frame { s with inSet := true } nid (keyOf key)
    exact hev

/-- C3: for a plain-value set through the write pipeline (the `level`
argument absent, the root unlocked, and the write not the primitive
`value`-key edge case), after the diff the pipeline raises exactly one
`notify`, bracketed in one batch together with the diff's own direct
child notifications, with level `-1` when the previous value was
`undefined`, level `0` when the diff found changes (`hasADiff`, which is
the recursive diff's result whenever the new or previous value is
structural), and level `1` when nothing structurally changed but the
identity changed; and when the new value is primitive and equal to the
previous value, no notification is raised at all. -/
theorem set_notify_levels :
    ∀ (s : GState) (nid : Nat) (k : SKey) (x : Value),
      s.root.locked = false →
      (x.isPrimitive && decide (k = SKey.key (.str "value"))
        && (getNodeValue s nid).isPrimitive) = false →
      ∃ (t : SetTrace) (ds : List Event),
        (setKey s nid k (.v x) none).2 = .ok t ∧
        ds.all Event.isDoNotify = true ∧
        (setKey s nid k (.v x) none).1.events =
          s.events ++ [.beginBatchEv] ++ ds ++
            (if t.notified then
              [.notifyEv t.childId t.newValue t.prevValue t.level t.whenOptimizedOnlyIf]
             else []) ++ [.endBatchEv] ∧
        t.newValue = x ∧
        (t.notified = false ↔ (x.isPrimitive = true ∧ x = t.prevValue)) ∧
        (t.prevValue = .undef → t.level = -1) ∧
        (t.prevValue ≠ .undef → t.level = if t.hasADiff then 0 else 1) ∧
        (x.isPrimitive = true → t.prevValue.isPrimitive = true → t.hasADiff = true) ∧
        ((!x.isPrimitive || !t.prevValue.isPrimitive) = true →
          ∃ sm, t.hasADiff = (updateNodes (sizeV x + sizeV t.prevValue + 2) sm
            t.childId x t.prevValue).2) := by
  intro s nid k x hl hc
  have hred : setKey s nid k (.v x) none = setKeyCore s nid k (.v x) none false x.isPrimitive := by
    unfold setKey
    simp only [hl, Bool.false_eq_true, if_false]
    dsimp only [SetVal.isPrim]
    rw [hc]
    simp only [Bool.false_eq_true, if_false]
  obtain ⟨s0, cid, prev, b, hev0, heq⟩ := setKeyCore_shape s nid k x none false x.isPrimitive
  obtain ⟨ds, hall, hcid, hnew, hprev, hnot, hlev, hdiffP, hdiffS, hev⟩ :=
    notifyPhase_spec s0 cid x prev none x.isPrimitive b
  refine ⟨(notifyPhase s0 cid x prev none x.isPrimitive b).2, ds, ?_, hall, ?_, hnew, ?_, ?_, ?_,
    ?_, ?_⟩
  · rw [hred, heq]
  · rw [hred, heq]
    show (notifyPhase s0 cid x prev none x.isPrimitive b).1.events = _
    rw [hev, hev0, hcid, hnew, hprev]
  · rw [hnot, hprev]
    cases hxp : x.isPrimitive with
    | false => simp
    | true =>
      simp only [Bool.not_true, Bool.false_or]
      by_cases hxe : x = prev
      · subst hxe
        simp
      · simp [hxe]
  · intro h
    rw [hprev] at h
    rw [hlev, h]
    simp
  · intro h
    rw [hprev] at h
    rw [hlev]
    rw [if_neg (by simpa using h)]
  · intro hxp hpp
    rw [hprev] at hpp
    rw [hdiffP (by rw [hxp, hpp]; simp), hxp]
  · intro hstruct
    rw [hprev] at hstruct
    exact ⟨beginBatch s0, by rw [hprev, hcid]; exact hdiffS hstruct⟩

/-- Witness for C3 at a concrete write: setting `a` of `{a: 1, b: 2}`
to `5`. -/
theorem set_notify_levels_witness :
    ∃ (t : SetTrace) (ds : List Event),
      (setKey exAB 0 (.key (.str "a")) (.v (.num 5)) none).2 = .ok t ∧
      ds.all Event.isDoNotify = true ∧
      (setKey exAB 0 (.key (.str "a")) (.v (.num 5)) none).1.events =
        exAB.events ++ [.beginBatchEv] ++ ds ++
          (if t.notified then
            [.notifyEv t.childId t.newValue t.prevValue t.level t.whenOptimizedOnlyIf]
           else []) ++ [.endBatchEv] ∧
      t.newValue = .num 5 ∧
      (t.notified = false ↔ ((Value.num 5).isPrimitive = true ∧ .num 5 = t.prevValue)) ∧
      (t.prevValue = .undef → t.level = -1) ∧
      (t.prevValue ≠ .undef → t.level = if t.hasADiff then 0 else 1) ∧
      ((Value.num 5).isPrimitive = true → t.prevValue.isPrimitive = true → t.hasADiff = true) ∧
      ((!(Value.num 5).isPrimitive || !t.prevValue.isPrimitive) = true →
        ∃ sm, t.hasADiff = (updateNodes (sizeV (.num 5) + sizeV t.prevValue + 2) sm
          t.childId (.num 5) t.prevValue).2) :=
  set_notify_levels exAB 0 (.key (.str "a")) (.num 5) rfl (by decide)

/-! ### Value-level path lemmas (for C7) -/

theorem lookupStr_not_mem (fs : List (String × Value)) (s : String)
    (h : (fs.map Prod.fst).contains s = false) : Value.lookupStr fs s = .undef := by
  induction fs with
  | nil => rfl
  | cons hd tl ih =>
    obtain ⟨a, b⟩ := hd
    simp only [List.map_cons, List.contains_cons, Bool.or_eq_false_iff] at h
    have ha : a ≠ s := by
      intro he
      subst he
      simp at h
    simp only [Value.lookupStr, if_neg ha]
    exact ih h.2

theorem removeField_contains (fs : List (String × Value)) (s : String)
    (h : (fs.map Prod.fst).Nodup) :
    ((Value.removeField fs s).map Prod.fst).contains s = false := by
  induction fs with
  | nil => rfl
  | cons hd tl ih =>
    obtain ⟨a, b⟩ := hd
    simp only [List.map_cons, List.nodup_cons] at h
    by_cases ha : a = s
    · subst ha
      have hrem : Value.removeField ((a, b) :: tl) a = tl := by
        simp [Value.removeField]
      rw [hrem]
      have hnm : a ∉ tl.map Prod.fst := h.1
      cases hcc : (tl.map Prod.fst).contains a with
      | false => rfl
      | true => exact absurd (List.elem_iff.mp hcc) hnm
    · simp only [Value.removeField, if_neg ha, List.map_cons, List.contains_cons,
        Bool.or_eq_false_iff]
      constructor
      · simp [Ne.symm ha]
      · exact ih h.2

theorem setField_self (fs : List (String × Value)) (s : String)
    (h : (fs.map Prod.fst).contains s = true) :
    Value.setField fs s (Value.lookupStr fs s) = fs := by
  induction fs with
  | nil => simp at h
  | cons hd tl ih =>
    obtain ⟨a, b⟩ := hd
    by_cases ha : a = s
    · subst ha
      simp [Value.setField, Value.lookupStr]
    · simp only [List.map_cons, List.contains_cons, Bool.or_eq_true] at h
      have h2 : (tl.map Prod.fst).contains s = true := by
        rcases h with h1 | h1
        · have hsa : s = a := by simpa using h1
          exact absurd hsa.symm ha
        · exact h1
      simp only [Value.setField, if_neg ha, Value.lookupStr, if_neg ha]
      rw [ih h2]

theorem setElem_self (es : List Value) (i : Nat) (h : i < es.length) :
    Value.setElem es i (es.getD i .undef) = es := by
  induction es generalizing i with
  | nil => simp at h
  | cons hd tl ih =>
    cases i with
    | zero => simp [Value.setElem]
    | succ j =>
      simp only [List.length_cons, Nat.succ_lt_succ_iff] at h
      simp only [Value.setElem, List.getD_cons_succ]
      rw [ih j h]

theorem setK_get?_self (v : Value) (k : Key)
    (hc : (v.isObj || v.isArr) = true) (ho : v.hasOwn k = true) :
    v.setK k (v.get? k) = v := by
  cases v <;> simp [Value.isObj, Value.isArr] at hc
  case obj fs =>
    cases k with
    | str t =>
      simp only [Value.hasOwn] at ho
      simp only [Value.setK, Value.get?]
      rw [setField_self fs t ho]
    | idx i =>
      simp only [Value.hasOwn] at ho
      simp only [Value.setK, Value.get?]
      rw [setField_self fs (toString i) ho]
  case arr es =>
    cases k with
    | idx i =>
      simp only [Value.hasOwn, decide_eq_true_eq] at ho
      simp only [Value.setK, Value.get?]
      rw [setElem_self es i ho]
    | str t =>
      simp only [Value.hasOwn] at ho
      cases ht : Value.strIdx? t with
      | none => rw [ht] at ho; simp at ho
      | some i =>
        rw [ht] at ho
        simp only [decide_eq_true_eq] at ho
        have hlen : t ≠ "length" := by
          intro he
          subst he
          have hnone : Value.strIdx? "length" = none := by decide
          rw [hnone] at ht
          exact Option.noConfusion ht
        simp only [Value.setK, Value.get?, ht, if_neg hlen]
        rw [setElem_self es i ho]

theorem setField_lookup (fs : List (String × Value)) (s : String) (x : Value) :
    Value.lookupStr (Value.setField fs s x) s = x := by
  induction fs with
  | nil => simp [Value.setField, Value.lookupStr]
  | cons hd tl ih =>
    obtain ⟨a, b⟩ := hd
    by_cases ha : a = s
    · subst ha
      simp [Value.setField, Value.lookupStr]
    · simp [Value.setField, if_neg ha, Value.lookupStr, ha, ih]

theorem setElem_getD (es : List Value) (i : Nat) (x : Value) :
    (Value.setElem es i x).getD i .undef = x := by
  induction es generalizing i with
  | nil =>
    induction i with
    | zero => simp [Value.setElem]
    | succ j ihj => simpa [Value.setElem] using ihj
  | cons hd tl ih =>
    cases i with
    | zero => simp [Value.setElem]
    | succ j => simpa [Value.setElem] using ih j

theorem get?_setK (v : Value) (k : Key) (x : Value)
    (hc : (v.isObj || v.isArr) = true) (ho : v.hasOwn k = true) :
    (v.setK k x).get? k = x := by
  cases v <;> simp [Value.isObj, Value.isArr] at hc
  case obj fs =>
    cases k with
    | str t => simp [Value.setK, Value.get?, setField_lookup]
    | idx i => simp [Value.setK, Value.get?, setField_lookup]
  case arr es =>
    cases k with
    | idx i =>
      simp only [Value.setK, Value.get?]
      simpa using setElem_getD es i x
    | str t =>
      simp only [Value.hasOwn] at ho
      cases ht : Value.strIdx? t with
      | none => rw [ht] at ho; simp at ho
      | some i =>
        have hlen : t ≠ "length" := by
          intro he
          subst he
          have hnone : Value.strIdx? "length" = none := by decide
          rw [hnone] at ht
          exact Option.noConfusion ht
        simp only [Value.setK, Value.get?, ht, if_neg hlen]
        simpa using setElem_getD es i x

theorem container_ne_undef (v : Value) (hc : (v.isObj || v.isArr) = true) : v ≠ .undef := by
  cases v <;> simp_all [Value.isObj, Value.isArr]

theorem ensureAt_pathOk (p : List Key) (v : Value) (h : Value.pathOk v p = true) :
    ensureAt v p = v := by
  induction p generalizing v with
  | nil =>
    simp only [Value.pathOk, decide_eq_true_eq] at h
    simp [ensureAt, h]
  | cons k ks ih =>
    simp only [Value.pathOk, Bool.and_eq_true] at h
    obtain ⟨⟨hc, ho⟩, hrest⟩ := h
    have hne := container_ne_undef v hc
    simp only [ensureAt, if_neg hne]
    rw [ih (v.get? k) hrest]
    exact setK_get?_self v k hc ho

theorem getPath_deletePath (p : List Key) (v : Value) (k : Key)
    (h : Value.pathOk v p = true) :
    (deletePath v (p ++ [k])).getPath p = (v.getPath p).deleteK k := by
  induction p generalizing v with
  | nil => rfl
  | cons q qs ih =>
    simp only [Value.pathOk, Bool.and_eq_true] at h
    obtain ⟨⟨hc, ho⟩, hrest⟩ := h
    have hcons : deletePath v ((q :: qs) ++ [k]) =
        v.setK q (deletePath (v.get? q) (qs ++ [k])) := by
      cases qs <;> rfl
    rw [hcons]
    show ((v.setK q (deletePath (v.get? q) (qs ++ [k]))).get? q).getPath qs = _
    rw [get?_setK v q _ hc ho]
    show _ = ((v.get? q).getPath qs).deleteK k
    exact ih (v.get? q) hrest

theorem deleteK_obj_removed (v : Value) (k : Key) (hobj : v.isObj = true)
    (hnd : v.nodupKeys = true) :
    (v.deleteK k).hasOwn k = false ∧ (v.deleteK k).get? k = .undef := by
  cases v <;> simp [Value.isObj] at hobj
  case obj fs =>
    simp only [Value.nodupKeys, decide_eq_true_eq] at hnd
    cases k with
    | str t =>
      have h1 := removeField_contains fs t hnd
      refine ⟨h1, ?_⟩
      exact lookupStr_not_mem _ t h1
    | idx i =>
      have h1 := removeField_contains fs (toString i) hnd
      refine ⟨h1, ?_⟩
      exact lookupStr_not_mem _ (toString i) h1

/-! ### Node path stability and `getChildNode` hits -/

theorem nodePathAux_congr (s1 s2 : GState) (h : s1.nodes = s2.nodes) :
    ∀ (f : Nat) (i : Nat), nodePathAux s1 f i = nodePathAux s2 f i := by
  intro f
  induction f with
  | zero => intro i; rfl
  | succ g ih =>
    intro i
    simp only [nodePathAux]
    rw [show s1.node? i = s2.node? i from by unfold GState.node?; rw [h]]
    cases s2.node? i with
    | none => rfl
    | some n =>
      dsimp only
      cases n.parent with
      | none => rfl
      | some p =>
        dsimp only
        rw [ih p]

theorem nodePath_congr (s1 s2 : GState) (h : s1.nodes = s2.nodes)
    (h2 : s1.nextId = s2.nextId) (i : Nat) : nodePath s1 i = nodePath s2 i := by
  unfold nodePath
  rw [h2]
  exact nodePathAux_congr s1 s2 h _ i

theorem getChildNode_hit (s : GState) (p : Nat) (k : Key) (c : Nat) (pn : Node)
    (h1 : s.node? p = some pn) (h2 : alGet pn.children k = some c) :
    getChildNode s p k = (s, c) := by
  simp only [getChildNode, h1, h2]

theorem notifyPhase_root (s : GState) (cid : Nat) (r pv : Value) (lvl : Option Int)
    (ip ib : Bool) : (notifyPhase s cid r pv lvl ip ib).1.root = s.root := by
  obtain ⟨hroot, -, -, -, -, -, -, -, -⟩ :=
    updateNodes_calm (sizeV r + sizeV pv + 2) (beginBatch s) cid r pv
  unfold notifyPhase
  dsimp only
  by_cases hcond : (!ip || !pv.isPrimitive) = true
  · rw [hcond]
    simp only [eq_self_iff_true, if_true]
    by_cases hnot : (!ip || decide (r ≠ pv)) = true
    · rw [hnot]
      simp only [eq_self_iff_true, if_true, endBatch, emit]
      rw [hroot]
      rfl
    · rw [Bool.not_eq_true] at hnot
      rw [hnot]
      simp only [Bool.false_eq_true, if_false, endBatch]
      rw [hroot]
      rfl
  · rw [Bool.not_eq_true] at hcond
    rw [hcond]
    simp only [Bool.false_eq_true, if_false]
    by_cases hnot : (!ip || decide (r ≠ pv)) = true
    · rw [hnot]
      simp [endBatch, emit, beginBatch]
    · rw [Bool.not_eq_true] at hnot
      rw [hnot]
      simp [endBatch, beginBatch]

/-! ### C7 — `delete` as a sentinel `set` -/

theorem setKeyCore_delete_nonroot (s : GState) (p : Nat) (k : Key) (cid : Nat) (pn : Node)
    (hkey : k ≠ .str "value")
    (hpn : s.node? p = some pn) (hcid : alGet pn.children k = some cid)
    (hpath : Value.pathOk s.root.val (nodePath s p) = true) :
    setKeyCore s p (.key k) (.v .undef) (some (-1)) true true =
      ((notifyPhase
          { s with
            inSet := true,
            root := { s.root with val := deletePath s.root.val (nodePath s p ++ [k]) } }
          cid .undef ((s.root.val.getPath (nodePath s p)).get? k) (some (-1)) true false).1,
       .ok (notifyPhase
          { s with
            inSet := true,
            root := { s.root with val := deletePath s.root.val (nodePath s p ++ [k]) } }
          cid .undef ((s.root.val.getPath (nodePath s p)).get? k) (some (-1)) true false).2) := by
  unfold setKeyCore
  dsimp only [keyOf]
  split
  · rename_i h
    exfalso
    rcases h with h | ⟨-, h2, -⟩
    · exact SKey.noConfusion h
    · rw [SKey.key.injEq] at h2
      exact hkey h2
  · rw [getChildNode_hit ({ s with inSet := true } : GState) p k cid pn hpn hcid]
    dsimp only
    rw [nodePath_congr ({ s with inSet := true } : GState) s rfl rfl p]
    rw [ensureAt_pathOk (nodePath s p) s.root.val hpath]
    rfl

/-- C7: `delete(node)` with no key removes the node itself from its
parent: it is implemented as a `setKey` on the parent at the node's key
with the delete sentinel and level `-1`, so it runs the same diff and
notify pipeline (`notifyPhase` on a state whose store already has the
path deleted), the recorded trace carries level `-1` and the resolved
new value `undefined`, and afterwards the parent container no longer
owns the key (the key is removed rather than stored). -/
theorem delete_is_sentinel_set (s : GState) (nid p cid : Nat) (n pn : Node)
    (hn : s.node? nid = some n) (hp : n.parent = some p)
    (hl : s.root.locked = false) (hkey : n.key ≠ .str "value")
    (hpn : s.node? p = some pn) (hcid : alGet pn.children n.key = some cid)
    (hpath : Value.pathOk s.root.val (nodePath s p) = true)
    (hobj : (s.root.val.getPath (nodePath s p)).isObj = true)
    (hnd : (s.root.val.getPath (nodePath s p)).nodupKeys = true) :
    deleteFn s nid none = setKey s p (.key n.key) .sentinel (some (-1)) ∧
    ∃ t : SetTrace,
      (deleteFn s nid none).2 = .ok t ∧
      t.childId = cid ∧ t.newValue = .undef ∧ t.level = -1 ∧
      (∃ (s3 : GState) (prev : Value),
        deleteFn s nid none =
          ((notifyPhase s3 cid .undef prev (some (-1)) true false).1,
           .ok (notifyPhase s3 cid .undef prev (some (-1)) true false).2)) ∧
      ((deleteFn s nid none).1.root.val.getPath (nodePath s p)).hasOwn n.key = false ∧
      ((deleteFn s nid none).1.root.val.getPath (nodePath s p)).get? n.key = .undef := by
  have hdel : deleteFn s nid none = setKey s p (.key n.key) .sentinel (some (-1)) := by
    simp only [deleteFn, hn, hp]
  have hdec : decide (SKey.key n.key = SKey.key (Key.str "value")) = false := by
    rw [decide_eq_false_iff_not]
    intro h2
    rw [SKey.key.injEq] at h2
    exact hkey h2
  have hkred : setKey s p (.key n.key) .sentinel (some (-1)) =
      setKeyCore s p (.key n.key) (.v .undef) (some (-1)) true true := by
    unfold setKey
    simp only [hl, Bool.false_eq_true, if_false]
    dsimp only [SetVal.isPrim, Value.isPrimitive]
    simp only [hdec, Bool.and_false, Bool.false_and, Bool.false_eq_true, if_false]
  have hcore := setKeyCore_delete_nonroot s p n.key cid pn hkey hpn hcid hpath
  have hfin : deleteFn s nid none =
      ((notifyPhase
          { s with
            inSet := true,
            root := { s.root with
              val := deletePath s.root.val (nodePath s p ++ [n.key]) } }
          cid .undef ((s.root.val.getPath (nodePath s p)).get? n.key) (some (-1)) true false).1,
       .ok (notifyPhase
          { s with
            inSet := true,
            root := { s.root with
              val := deletePath s.root.val (nodePath s p ++ [n.key]) } }
          cid .undef ((s.root.val.getPath (nodePath s p)).get? n.key) (some (-1)) true false).2) := by
    rw [hdel, hkred, hcore]
  have hroot := notifyPhase_root
      { s with
        inSet := true,
        root := { s.root with
          val := deletePath s.root.val (nodePath s p ++ [n.key]) } }
      cid .undef ((s.root.val.getPath (nodePath s p)).get? n.key) (some (-1)) true false
  have hdelval : ((deleteFn s nid none).1).root.val =
      deletePath s.root.val (nodePath s p ++ [n.key]) := by
    rw [hfin]
    exact congrArg RootW.val hroot
  have hgp : ((deleteFn s nid none).1.root.val.getPath (nodePath s p)) =
      (s.root.val.getPath (nodePath s p)).deleteK n.key := by
    rw [hdelval]
    exact getPath_deletePath (nodePath s p) s.root.val n.key hpath
  obtain ⟨hown, hget⟩ := deleteK_obj_removed (s.root.val.getPath (nodePath s p)) n.key hobj hnd
  refine ⟨hdel, (notifyPhase
      { s with
        inSet := true,
        root := { s.root with
          val := deletePath s.root.val (nodePath s p ++ [n.key]) } }
      cid .undef ((s.root.val.getPath (nodePath s p)).get? n.key) (some (-1)) true false).2,
    ?_, rfl, rfl, ?_, ⟨_, _, hfin⟩, ?_, ?_⟩
  · rw [hfin]
  · rfl
  · rw [hgp]; exact hown
  · rw [hgp]; exact hget

/-- Witness for C7: deleting node 1 (`a`) of `{a: 1, b: 2}` through
`delete` with no key. -/
theorem delete_is_sentinel_set_witness :
    deleteFn exAB 1 none = setKey exAB 0 (.key (.str "a")) .sentinel (some (-1)) ∧
    ∃ t : SetTrace,
      (deleteFn exAB 1 none).2 = .ok t ∧
      t.childId = 1 ∧ t.newValue = .undef ∧ t.level = -1 ∧
      (∃ (s3 : GState) (prev : Value),
        deleteFn exAB 1 none =
          ((notifyPhase s3 1 .undef prev (some (-1)) true false).1,
           .ok (notifyPhase s3 1 .undef prev (some (-1)) true false).2)) ∧
      ((deleteFn exAB 1 none).1.root.val.getPath (nodePath exAB 0)).hasOwn (.str "a") = false ∧
      ((deleteFn exAB 1 none).1.root.val.getPath (nodePath exAB 0)).get? (.str "a") = .undef :=
  delete_is_sentinel_set exAB 1 0 1
    { id := 1, parent := some 0, key := .str "a", children := [], listeners := true }
    { id := 0, parent := none, key := .str "", children := [(.str "a", 1)], listeners := false }
    rfl rfl rfl (by decide) rfl rfl (by decide) (by decide) (by decide)

/-! ### C6 — `assign` as batched per-key sets -/

theorem notifyPhase_flags (s : GState) (cid : Nat) (r pv : Value) (lvl : Option Int)
    (ip ib : Bool) :
    (notifyPhase s cid r pv lvl ip ib).1.inSet = false ∧
    (notifyPhase s cid r pv lvl ip ib).1.inAssign = s.inAssign := by
  obtain ⟨-, -, hia, -, -, -, -, -, -⟩ :=
    updateNodes_calm (sizeV r + sizeV pv + 2) (beginBatch s) cid r pv
  unfold notifyPhase
  dsimp only
  by_cases hcond : (!ip || !pv.isPrimitive) = true
  · rw [hcond]
    simp only [eq_self_iff_true, if_true]
    by_cases hnot : (!ip || decide (r ≠ pv)) = true
    · rw [hnot]
      simp only [eq_self_iff_true, if_true, endBatch, emit]
      exact ⟨by first | trivial | rfl, by first | trivial | exact hia | rfl⟩
    · rw [Bool.not_eq_true] at hnot
      rw [hnot]
      simp only [Bool.false_eq_true, if_false, endBatch]
      exact ⟨by first | trivial | rfl, by first | trivial | exact hia | rfl⟩
  · rw [Bool.not_eq_true] at hcond
    rw [hcond]
    simp only [Bool.false_eq_true, if_false]
    by_cases hnot : (!ip || decide (r ≠ pv)) = true
    · rw [hnot]
      simp only [eq_self_iff_true, if_true, endBatch, emit]
      exact ⟨by first | trivial | rfl, by first | trivial | rfl⟩
    · rw [Bool.not_eq_true] at hnot
      rw [hnot]
      simp only [Bool.false_eq_true, if_false, endBatch]
      exact ⟨by first | trivial | rfl, by first | trivial | rfl⟩

theorem notifyPhase_locked (s : GState) (cid : Nat) (r pv : Value) (lvl : Option Int)
    (ip ib : Bool) :
    (notifyPhase s cid r pv lvl ip ib).1.root.locked = s.root.locked :=
  congrArg RootW.locked (notifyPhase_root s cid r pv lvl ip ib)

theorem setKeyCore_after (s : GState) (nid : Nat) (key : SKey) (x : Value)
    (lvl : Option Int) (d p : Bool) :
    (setKeyCore s nid key (.v x) lvl d p).1.inSet = false ∧
    (setKeyCore s nid key (.v x) lvl d p).1.inAssign = s.inAssign ∧
    (setKeyCore s nid key (.v x) lvl d p).1.root.locked = s.root.locked ∧
    ∃ t, (setKeyCore s nid key (.v x) lvl d p).2 = .ok t := by
  unfold setKeyCore
  dsimp only
  split
  · exact ⟨(notifyPhase_flags _ _ _ _ _ _ true).1, (notifyPhase_flags _ _ _ _ _ _ true).2,
      notifyPhase_locked _ _ _ _ _ _ true, _, rfl⟩
  · obtain ⟨hr, -, -, hia2, -, -, -⟩ := getChildNode_frame { s with inSet := true } nid (keyOf key)
    refine ⟨(notifyPhase_flags _ _ _ _ _ _ false).1, ?_, ?_, _, rfl⟩
    · exact ((notifyPhase_flags _ _ _ _ _ _ false).2).trans hia2
    · have h2 : (getChildNode { s with inSet := true } nid (keyOf key)).1.root.locked
          = s.root.locked := congrArg RootW.locked hr
      exact (notifyPhase_locked _ _ _ _ _ _ false).trans h2

theorem setKey_after (s : GState) (nid : Nat) (k : String) (x : Value)
    (hl : s.root.locked = false) (hk : k ≠ "value") :
    (setKey s nid (.key (.str k)) (.v x) none).1.inSet = false ∧
    (setKey s nid (.key (.str k)) (.v x) none).1.inAssign = s.inAssign ∧
    (setKey s nid (.key (.str k)) (.v x) none).1.root.locked = s.root.locked ∧
    ∃ t, (setKey s nid (.key (.str k)) (.v x) none).2 = .ok t := by
  have hdec : decide (SKey.key (Key.str k) = SKey.key (Key.str "value")) = false := by
    rw [decide_eq_false_iff_not]
    intro h2
    rw [SKey.key.injEq, Key.str.injEq] at h2
    exact hk h2
  have hred : setKey s nid (.key (.str k)) (.v x) none =
      setKeyCore s nid (.key (.str k)) (.v x) none false x.isPrimitive := by
    unfold setKey
    simp only [hl, Bool.false_eq_true, if_false]
    dsimp only [SetVal.isPrim]
    simp only [hdec, Bool.and_false, Bool.false_and, Bool.false_eq_true, if_false]
  rw [hred]
  exact setKeyCore_after s nid _ x none false x.isPrimitive

theorem assignLoop_spec (nid : Nat) : ∀ (fs : List (String × Value)) (s : GState),
    s.root.locked = false → s.inSet = false → s.inAssign = true →
    (∀ kv ∈ fs, kv.1 ≠ "value") →
    assignLoop nid s fs =
      (fs.foldl (fun s kv => (setKey s nid (.key (.str kv.1)) (.v kv.2) none).1) s, .ok) := by
  intro fs
  induction fs with
  | nil =>
    intro s _ _ _ _
    rfl
  | cons kv fs ih =>
    obtain ⟨k, v⟩ := kv
    intro s hl hins hia hkeys
    have hk : k ≠ "value" := hkeys (k, v) (List.mem_cons_self _ _)
    obtain ⟨ha1, ha2, ha3, t, ht⟩ := setKey_after s nid k v hl hk
    rcases hsk : setKey s nid (.key (.str k)) (.v v) none with ⟨s2, o⟩
    rw [hsk] at ht ha1 ha2 ha3
    have ht2 : o = .ok t := ht
    subst ht2
    have hps : proxySet s nid (.str k) v = (s2, .allowed) := by
      unfold proxySet
      simp only [hins, Bool.false_eq_true, if_false, hia, Bool.not_true, Bool.false_and]
      rw [hsk]
    rw [assignLoop, hps]
    dsimp only
    rw [ih s2 (ha3.trans hl) ha1 (ha2.trans hia)
      (fun kv h => hkeys kv (List.mem_cons_of_mem _ h))]
    simp only [List.foldl_cons]
    rw [hsk]

/-- C6: `assign(node, partial)` is exactly one write-pipeline `setKey`
per key of the partial inside a single batch (`assignSpec`, written from
the claim): it begins a batch, coerces a primitive root value to an
empty object, performs the per-key writes with `inAssign` (the
relaxation of the safe-mode write restriction on the proxy `set` trap)
raised for the duration, and ends the batch — stated for an unlocked
root outside an internal write, for a partial without the reserved
primitive-unwrap key `value`. -/
theorem assign_is_batched_sets (s : GState) (nid : Nat) (value : List (String × Value))
    (hl : s.root.locked = false) (hins : s.inSet = false)
    (hkeys : ∀ kv ∈ value, kv.1 ≠ "value") :
    assign s nid value = (assignSpec s nid value, .ok) := by
  unfold assign assignSpec
  dsimp only [beginBatch]
  by_cases hprim : s.root.val.isPrimitive = true
  · rw [hprim]
    simp only [eq_self_iff_true, if_true]
    rw [assignLoop_spec nid]
    · exact hl
    · exact hins
    · rfl
    · exact hkeys
  · rw [Bool.not_eq_true] at hprim
    rw [hprim]
    simp only [Bool.false_eq_true, if_false]
    rw [assignLoop_spec nid]
    · exact hl
    · exact hins
    · rfl
    · exact hkeys

/-- Witness for C6: assigning `{a: 5, c: 7}` onto `{a: 1, b: 2}`. -/
theorem assign_is_batched_sets_witness :
    assign exAB 0 [("a", .num 5), ("c", .num 7)] =
      (assignSpec exAB 0 [("a", .num 5), ("c", .num 7)], .ok) :=
  assign_is_batched_sets exAB 0 [("a", .num 5), ("c", .num 7)] rfl rfl (by
    intro kv h
    rcases List.mem_cons.mp h with h1 | h1
    · subst h1
      decide
    · rcases List.mem_cons.mp h1 with h2 | h2
      · subst h2
        decide
      · exact absurd h2 (List.not_mem_nil kv))

/-! ### C2 — array moves: key-map and node-graph ground lemmas -/

theorem alGet_mem {α β : Type} [DecidableEq α] :
    ∀ (l : List (α × β)) (a : α) (v : β), alGet l a = some v → (a, v) ∈ l := by
  intro l
  induction l with
  | nil => intro a v h; exact Option.noConfusion h
  | cons hd tl ih =>
    intro a v h
    obtain ⟨x, y⟩ := hd
    by_cases hx : x = a
    · subst hx
      simp only [alGet, if_pos rfl] at h
      cases h
      exact List.mem_cons_self _ _
    · simp only [alGet, if_neg hx] at h
      exact List.mem_cons_of_mem _ (ih a v h)

theorem alSet_mem {α β : Type} [DecidableEq α] :
    ∀ (l : List (α × β)) (a : α) (v : β) (e : α × β),
      e ∈ alSet l a v → e = (a, v) ∨ e ∈ l := by
  intro l
  induction l with
  | nil =>
    intro a v e h
    simp only [alSet, List.mem_singleton] at h
    exact Or.inl h
  | cons hd tl ih =>
    intro a v e h
    obtain ⟨x, y⟩ := hd
    by_cases hx : x = a
    · subst hx
      simp only [alSet, eq_self_iff_true, if_true, List.mem_cons] at h
      rcases h with h | h
      · exact Or.inl h
      · exact Or.inr (List.mem_cons_of_mem _ h)
    · simp only [alSet, if_neg hx, List.mem_cons] at h
      rcases h with h | h
      · exact Or.inr (by rw [h]; exact List.mem_cons_self _ _)
      · rcases ih a v e h with h1 | h1
        · exact Or.inl h1
        · exact Or.inr (List.mem_cons_of_mem _ h1)

theorem kmProp_alSet (i : Nat) (km : List (Value × Nat)) (a : Value)
    (h : kmProp i km) : kmProp (i + 1) (alSet km a i) := by
  obtain ⟨hlt, hinj⟩ := h
  constructor
  · intro e he
    rcases alSet_mem km a i e he with h1 | h1
    · rw [h1]
      exact Nat.lt_succ_self i
    · exact Nat.lt_trans (hlt e h1) (Nat.lt_succ_self i)
  · intro e1 he1 e2 he2 hv
    rcases alSet_mem km a i e1 he1 with h1 | h1 <;>
      rcases alSet_mem km a i e2 he2 with h2 | h2
    · rw [h1, h2]
    · exfalso
      have : e2.2 < i := hlt e2 h2
      rw [← hv, h1] at this
      exact Nat.lt_irrefl i this
    · exfalso
      have : e1.2 < i := hlt e1 h1
      rw [hv, h2] at this
      exact Nat.lt_irrefl i this
    · exact hinj e1 h1 e2 h2 hv

theorem kmProp_skip (i : Nat) (km : List (Value × Nat)) (h : kmProp i km) :
    kmProp (i + 1) km := by
  obtain ⟨hlt, hinj⟩ := h
  exact ⟨fun e he => Nat.lt_trans (hlt e he) (Nat.lt_succ_self i), hinj⟩

theorem buildKeyMapFrom_prop (fld : String) :
    ∀ (ps : List Value) (i : Nat) (km : List (Value × Nat)),
      kmProp i km →
      ∃ n, kmProp n (buildKeyMapFrom fld i ps km) := by
  intro ps
  induction ps with
  | nil =>
    intro i km h
    exact ⟨i, h⟩
  | cons p ps ih =>
    intro i km h
    show ∃ n, kmProp n (buildKeyMapFrom fld (i + 1) ps
      (if p.truthy then alSet km (p.get? (.str fld)) i else km))
    split
    · exact ih (i + 1) _ (kmProp_alSet i km _ h)
    · exact ih (i + 1) km (kmProp_skip i km h)

/-- The identity → previous-index map binds each index to at most one
identity: two successful lookups yielding the same previous index come
from the same identity value. -/
theorem buildKeyMap_inj (fld : String) (ps : List Value) (a b : Value) (j : Nat)
    (ha : alGet (buildKeyMap fld ps) a = some j)
    (hb : alGet (buildKeyMap fld ps) b = some j) : a = b := by
  obtain ⟨n, -, hinj⟩ := buildKeyMapFrom_prop fld ps 0 [] ⟨by simp, by simp⟩
  exact hinj (a, j) (alGet_mem _ a j ha) (b, j) (alGet_mem _ b j hb) rfl

theorem node?_setNode_self (s : GState) (i : Nat) (n : Node) :
    (setNode s i n).node? i = some n := by
  unfold setNode GState.node?
  exact alGet_alSet_self s.nodes i n

theorem node?_setNode_ne (s : GState) (i q : Nat) (n : Node) (h : q ≠ i) :
    (setNode s i n).node? q = s.node? q := by
  unfold setNode GState.node?
  exact alGet_alSet_ne s.nodes i q n h

/-- Full case analysis of `ensureChild` at a known parent node: either
the key is already bound and nothing changes, or a fresh child node is
allocated at the next free id and bound under the key. -/
theorem getChildNode_cases (s : GState) (pid : Nat) (k : Key) (P : Node)
    (hP : s.node? pid = some P) (hlt : pid < s.nextId) :
    (∃ c, alGet P.children k = some c ∧ getChildNode s pid k = (s, c)) ∨
    (alGet P.children k = none ∧
      (getChildNode s pid k).2 = s.nextId ∧
      (getChildNode s pid k).1.nextId = s.nextId + 1 ∧
      (getChildNode s pid k).1.node? pid =
        some { P with children := alSet P.children k s.nextId } ∧
      (getChildNode s pid k).1.node? s.nextId =
        some { id := s.nextId, parent := some pid, key := k, children := [],
               listeners := false } ∧
      (∀ q, q ≠ pid → q ≠ s.nextId → (getChildNode s pid k).1.node? q = s.node? q)) := by
  cases hget : alGet P.children k with
  | some c =>
    exact Or.inl ⟨c, rfl, getChildNode_hit s pid k c P hP hget⟩
  | none =>
    have hred : getChildNode s pid k =
        (setNode (setNode { s with nextId := s.nextId + 1 } pid
            { P with children := alSet P.children k s.nextId })
          s.nextId
          { id := s.nextId, parent := some pid, key := k, children := [],
            listeners := false },
         s.nextId) := by
      simp only [getChildNode, hP, hget]
    have hne : pid ≠ s.nextId := Nat.ne_of_lt hlt
    refine Or.inr ⟨rfl, by rw [hred], by rw [hred]; rfl, ?_, ?_, ?_⟩
    · rw [hred]
      show (setNode _ s.nextId _).node? pid = _
      rw [node?_setNode_ne _ _ _ _ hne]
      exact node?_setNode_self _ _ _
    · rw [hred]
      exact node?_setNode_self _ _ _
    · intro q hq1 hq2
      rw [hred]
      show (setNode _ s.nextId _).node? q = _
      rw [node?_setNode_ne _ _ _ _ hq2, node?_setNode_ne _ _ _ _ hq1]
      rfl

/-! ### C2 — footprint of the recursive diff on flat values -/

theorem flat_not_arr (v : Value) (h : flatV v = true) : v.isArr = false := by
  cases v <;> simp_all [flatV, Value.isArr, Value.isPrimitive]

theorem lookupStr_prim (fs : List (String × Value)) (s : String)
    (h : ∀ e ∈ fs, e.2.isPrimitive = true) : (Value.lookupStr fs s).isPrimitive = true := by
  induction fs with
  | nil => rfl
  | cons hd tl ih =>
    obtain ⟨a, b⟩ := hd
    simp only [Value.lookupStr]
    split
    · exact h (a, b) (List.mem_cons_self _ _)
    · exact ih (fun e he => h e (List.mem_cons_of_mem _ he))

theorem flat_get_prim (v : Value) (kk : Key) (h : flatV v = true) :
    (v.get? kk).isPrimitive = true := by
  cases v with
  | obj fs =>
    have hall : ∀ e ∈ fs, e.2.isPrimitive = true := by
      simpa [flatV, List.all_eq_true] using h
    cases kk with
    | str s => exact lookupStr_prim fs s hall
    | idx i => exact lookupStr_prim fs (toString i) hall
  | arr es => simp [flatV, Value.isPrimitive] at h
  | undef => rfl
  | null => rfl
  | bool b => rfl
  | num n => rfl
  | str s => rfl

theorem foot_refl (x : Nat) (s : GState) : FootStep x s s :=
  ⟨Nat.le_refl _, fun _ _ _ => rfl, fun n h => ⟨n.children, h⟩⟩

theorem foot_trans (x : Nat) (s s1 s2 : GState) (h1 : FootStep x s s1)
    (h2 : FootStep x s1 s2) : FootStep x s s2 := by
  obtain ⟨ha1, hb1, hc1⟩ := h1
  obtain ⟨ha2, hb2, hc2⟩ := h2
  refine ⟨Nat.le_trans ha1 ha2, ?_, ?_⟩
  · intro q hq hlt
    rw [hb2 q hq (Nat.lt_of_lt_of_le hlt ha1)]
    exact hb1 q hq hlt
  · intro n hn
    obtain ⟨ch1, hch1⟩ := hc1 n hn
    obtain ⟨ch2, hch2⟩ := hc2 { n with children := ch1 } hch1
    exact ⟨ch2, hch2⟩

theorem foot_emit (x : Nat) (s : GState) (e : Event) : FootStep x s (emit s e) :=
  ⟨Nat.le_refl _, fun _ _ _ => rfl, fun n h => ⟨n.children, h⟩⟩

theorem foot_getChildNode (s : GState) (x : Nat) (k : Key) (hx : x < s.nextId) :
    FootStep x s (getChildNode s x k).1 := by
  cases hnx : s.node? x with
  | none =>
    have heq : getChildNode s x k = (s, x) := by
      simp only [getChildNode, hnx]
    rw [heq]
    exact foot_refl x s
  | some P =>
    rcases getChildNode_cases s x k P hnx hx with ⟨c, -, heq⟩ | ⟨-, -, hnid, hpid2, -, hq⟩
    · rw [heq]
      exact foot_refl x s
    · refine ⟨?_, ?_, ?_⟩
      · rw [hnid]
        exact Nat.le_succ _
      · intro q hq1 hq2
        exact hq q hq1 (Nat.ne_of_lt hq2)
      · intro n hn
        rw [hnx] at hn
        have hPn : P = n := by injection hn
        subst hPn
        exact ⟨alSet P.children k s.nextId, hpid2⟩

theorem foot_setNode_children (x : Nat) (s s1 : GState) (p : Node)
    (ch1 : List (Key × Nat)) (h : FootStep x s s1) (hp : s1.node? x = some p) :
    FootStep x s (setNode s1 x { p with children := ch1 }) := by
  obtain ⟨ha, hb, hc⟩ := h
  refine ⟨ha, ?_, ?_⟩
  · intro q hq hlt
    rw [node?_setNode_ne s1 x q _ hq]
    exact hb q hq hlt
  · intro n hn
    obtain ⟨ch0, hch0⟩ := hc n hn
    rw [hp] at hch0
    have hpn : p = { n with children := ch0 } := by injection hch0
    refine ⟨ch1, ?_⟩
    rw [node?_setNode_self s1 x _, hpn]

theorem foot_applyMoved (x : Nat) (s0 : GState) (m : List (Key × Nat)) (b : GState)
    (hb : FootStep x s0 b) : FootStep x s0 (applyMoved b x m) := by
  unfold applyMoved
  refine foldl_preserve (FootStep x s0) _ m b hb ?_
  intro b2 a hb2 _
  cases hnb : b2.node? x with
  | none =>
    simp only [hnb]
    exact hb2
  | some p =>
    simp only [hnb]
    exact foot_setNode_children x s0 b2 p _ hb2 hnb

theorem foot_removalBody (recur : GState → Nat → Value → Value → GState × Bool)
    (x : Nat) (newObj prevValue : Value) (s0 b : GState) (key : String)
    (hx : x < s0.nextId) (hp : flatV prevValue = true) (hb : FootStep x s0 b) :
    FootStep x s0 (removalBody recur x newObj prevValue b key) := by
  unfold removalBody
  dsimp only
  split
  · exact hb
  · have hg : FootStep x s0 (getChildNode b x (.str key)).1 :=
      foot_trans x s0 b _ hb
        (foot_getChildNode b x (.str key) (Nat.lt_of_lt_of_le hx hb.1))
    rw [flat_get_prim prevValue (.str key) hp]
    simp only [eq_self_iff_true, if_true]
    split
    · exact foot_trans x s0 _ _ hg (foot_emit x _ _)
    · exact hg

theorem moveStep_flat (x : Nat) (obj prevValue : Value)
    (km : Option (List (Value × Nat))) (iad : Bool) (acc : LoopAcc)
    (key : Key) (value id : Value) (isDiff : Bool) (ho : obj.isArr = false) :
    moveStep x obj prevValue km iad acc key value id isDiff =
      ((getChildNode acc.s x key).1, (getChildNode acc.s x key).2, isDiff,
        acc.didMove, acc.moved) := by
  unfold moveStep
  rw [ho]
  simp only [Bool.false_and, Bool.false_eq_true, if_false]

theorem foot_mainBody (recur : GState → Nat → Value → Value → GState × Bool)
    (x : Nat) (obj prevValue : Value) (idf : Option String)
    (km : Option (List (Value × Nat))) (iad : Bool) (s0 : GState) (acc : LoopAcc)
    (key : Key) (hx : x < s0.nextId) (ho : flatV obj = true)
    (hb : FootStep x s0 acc.s) :
    FootStep x s0 (mainBody recur x obj prevValue idf km iad acc key).s := by
  unfold mainBody
  dsimp only
  split
  · rw [moveStep_flat x obj prevValue km iad acc key _ _ _ (flat_not_arr obj ho)]
    dsimp only
    rw [flat_get_prim obj key ho]
    simp only [Bool.not_true, Bool.and_false, Bool.false_eq_true, if_false]
    have hg : FootStep x s0 (getChildNode acc.s x key).1 :=
      foot_trans x s0 acc.s _ hb
        (foot_getChildNode acc.s x key (Nat.lt_of_lt_of_le hx hb.1))
    split
    · exact foot_trans x s0 _ _ hg (foot_emit x _ _)
    · exact hg
  · exact hb

theorem foot_mainPart (recur : GState → Nat → Value → Value → GState × Bool)
    (x : Nat) (o p : Value) (idf : Option String) (km : Option (List (Value × Nat)))
    (s0 b : GState) (ho : flatV o = true) (hx : x < s0.nextId)
    (hb : FootStep x s0 b) :
    FootStep x s0 (mainPart recur b x o p idf km).1 := by
  unfold mainPart
  split
  · dsimp only
    refine foot_applyMoved x s0 _ _ ?_
    exact foldl_preserve (fun acc => FootStep x s0 acc.s) _ (loopKeys o)
      { s := b, hasADiff := _, didMove := false, moved := [] } hb
      (fun b2 a hb2 _ => foot_mainBody recur x o p idf km _ s0 b2 a hx ho hb2)
  · split
    · exact hb
    · exact hb

/-- Footprint of the recursive diff when both sides are flat data: the
run touches only the root node `x` (and there only its children map)
and freshly allocated ids; every other pre-existing node is untouched.
Flat values never recurse further, so the bound holds for any fuel. -/
theorem updateNodes_foot (fuel : Nat) (s : GState) (x : Nat) (o p : Value)
    (ho : flatV o = true) (hp : flatV p = true) (hx : x < s.nextId) :
    FootStep x s (updateNodes fuel s x o p).1 := by
  cases fuel with
  | zero => exact foot_refl x s
  | succ f =>
    simp only [updateNodes]
    rw [flat_not_arr o ho]
    simp only [Bool.false_and, Bool.false_eq_true, if_false]
    have hrem : FootStep x s
        (if p.truthy then
          p.jsKeysStr.foldl (removalBody (fun s i oo pp => updateNodes f s i oo pp) x o p) s
        else s) := by
      split
      · exact foldl_preserve (FootStep x s) _ p.jsKeysStr s (foot_refl x s)
          (fun b2 a hb2 _ =>
            foot_removalBody (fun s i oo pp => updateNodes f s i oo pp) x o p s b2 a hx hp hb2)
      · exact foot_refl x s
    exact foot_mainPart (fun s i oo pp => updateNodes f s i oo pp) x o p none none s _ ho hx hrem

/-! ### C2 — invariant preservation through one loop iteration -/

theorem node?_setNodeKey_ne (t : GState) (c q : Nat) (kk : Key) (h : q ≠ c) :
    (setNodeKey t c kk).node? q = t.node? q := by
  unfold setNodeKey
  cases t.node? c with
  | none => rfl
  | some n => exact node?_setNode_ne t c q _ h

theorem nextId_setNodeKey (t : GState) (c : Nat) (kk : Key) :
    (setNodeKey t c kk).nextId = t.nextId := by
  unfold setNodeKey
  cases t.node? c with
  | none => rfl
  | some n => rfl

theorem node?_setNodeKey_hit (t : GState) (c : Nat) (kk : Key) (n : Node)
    (h : t.node? c = some n) :
    (setNodeKey t c kk).node? c = some { n with key := kk } := by
  unfold setNodeKey
  rw [h]
  exact node?_setNode_self t c _

theorem flat_getD (l : List Value) (i : Nat) (h : ∀ v ∈ l, flatV v = true) :
    flatV (l.getD i .undef) = true := by
  cases hx : l[i]? with
  | none => simp [List.getD, hx, flatV, Value.isPrimitive]
  | some v =>
    have hv : v ∈ l := List.getElem?_mem hx
    simpa [List.getD, hx] using h v hv

theorem parentInv_getChild (s0 : GState) (pid : Nat) (pn : Node) (cj : Nat) (j : Nat)
    (t : GState) (kk0 : Key) (hpl : pid < s0.nextId) (hcl : cj < s0.nextId)
    (h : ParentInv s0 pid pn cj j t) :
    ParentInv s0 pid pn cj j (getChildNode t pid kk0).1 ∧
    ((getChildNode t pid kk0).2 < (getChildNode t pid kk0).1.nextId ∧
      (getChildNode t pid kk0).2 ≠ pid ∧
      (kk0 ≠ .idx j → (getChildNode t pid kk0).2 ≠ cj)) ∧
    (∀ ch, t.node? pid = some { pn with children := ch } →
      alGet ch (.idx j) = some cj →
      ∀ ch2, (getChildNode t pid kk0).1.node? pid = some { pn with children := ch2 } →
        alGet ch2 (.idx j) = some cj) ∧
    (∀ q, q ≠ pid → q < t.nextId → (getChildNode t pid kk0).1.node? q = t.node? q) ∧
    t.nextId ≤ (getChildNode t pid kk0).1.nextId := by
  obtain ⟨hn0, ch, hch, hprops⟩ := h
  have hplt : pid < t.nextId := Nat.lt_of_lt_of_le hpl hn0
  rcases getChildNode_cases t pid kk0 { pn with children := ch } hch hplt with
    ⟨c, hgc, heq⟩ | ⟨hgc, hc2, hnid, hpidn, -, hq⟩
  · rw [heq]
    refine ⟨⟨hn0, ch, hch, hprops⟩, ?_, ?_, fun q _ _ => rfl, Nat.le_refl _⟩
    · obtain ⟨h1, h2, h3⟩ := hprops kk0 c hgc
      exact ⟨h1, h2, h3⟩
    · intro ch1 hch1 hj1 ch2 hch2
      rw [hch] at hch2
      have : ({ pn with children := ch } : Node) = { pn with children := ch2 } := by
        injection hch2
      have hcheq : ch = ch2 := by injection this
      rw [hch] at hch1
      have : ({ pn with children := ch1 } : Node) = { pn with children := ch } := by
        injection hch1.symm
      have hcheq1 : ch1 = ch := by injection this
      rw [← hcheq, ← hcheq1]
      exact hj1
  · refine ⟨?_, ?_, ?_, ?_, ?_⟩
    · refine ⟨Nat.le_trans hn0 (by rw [hnid]; exact Nat.le_succ _), ?_⟩
      refine ⟨alSet ch kk0 t.nextId, ?_, ?_⟩
      · have : ({ pn with children := ch } : Node).children = ch := rfl
        simpa [this] using hpidn
      · intro kk c hkc
        by_cases hkk : kk = kk0
        · subst hkk
          rw [alGet_alSet_self] at hkc
          cases hkc
          refine ⟨by rw [hnid]; exact Nat.lt_succ_self _, ?_, ?_⟩
          · exact Ne.symm (Nat.ne_of_lt hplt)
          · intro _
            exact Ne.symm (Nat.ne_of_lt (Nat.lt_of_lt_of_le hcl hn0))
        · rw [alGet_alSet_ne _ _ _ _ hkk] at hkc
          obtain ⟨h1, h2, h3⟩ := hprops kk c hkc
          exact ⟨by rw [hnid]; exact Nat.lt_trans h1 (Nat.lt_succ_self _), h2, h3⟩
    · rw [hc2]
      refine ⟨by rw [hnid]; exact Nat.lt_succ_self _, ?_, ?_⟩
      · exact Ne.symm (Nat.ne_of_lt hplt)
      · intro _
        exact Ne.symm (Nat.ne_of_lt (Nat.lt_of_lt_of_le hcl hn0))
    · intro ch1 hch1 hj1 ch2 hch2
      rw [hch] at hch1
      have heq1 : ({ pn with children := ch1 } : Node) = { pn with children := ch } := by
        injection hch1.symm
      have hcheq1 : ch1 = ch := by injection heq1
      have heq2 : ({ pn with children := alSet ch kk0 t.nextId } : Node) =
          { pn with children := ch2 } := by
        rw [hpidn] at hch2
        injection hch2
      have hcheq2 : alSet ch kk0 t.nextId = ch2 := by injection heq2
      rw [← hcheq2]
      by_cases hkk : Key.idx j = kk0
      · rw [← hkk] at hgc
        rw [← hcheq1] at hgc
        rw [hgc] at hj1
        exact Option.noConfusion hj1
      · rw [alGet_alSet_ne _ _ _ _ hkk]
        rw [← hcheq1]
        exact hj1
    · intro q hq1 hq2
      exact hq q hq1 (Nat.ne_of_lt hq2)
    · rw [hnid]
      exact Nat.le_succ _

theorem parentInv_foot (s0 : GState) (pid : Nat) (pn : Node) (cj : Nat) (j : Nat)
    (t u : GState) (c : Nat) (hpl : pid < s0.nextId)
    (h : ParentInv s0 pid pn cj j t) (hfoot : FootStep c t u) (hc : c ≠ pid) :
    ParentInv s0 pid pn cj j u := by
  obtain ⟨hn0, ch, hch, hprops⟩ := h
  obtain ⟨hfa, hfb, -⟩ := hfoot
  refine ⟨Nat.le_trans hn0 hfa, ch, ?_, ?_⟩
  · rw [hfb pid (fun hh => hc hh.symm) (Nat.lt_of_lt_of_le hpl hn0)]
    exact hch
  · intro kk c2 hkc
    obtain ⟨h1, h2, h3⟩ := hprops kk c2 hkc
    exact ⟨Nat.lt_of_lt_of_le h1 hfa, h2, h3⟩

theorem cjnode_foot (t u : GState) (cj : Nat) (N : Node) (c : Nat)
    (hN : t.node? cj = some N) (hfoot : FootStep c t u) (hcj : cj < t.nextId) :
    ∃ ch2, u.node? cj = some { N with children := ch2 } := by
  by_cases hc : cj = c
  · subst hc
    exact hfoot.2.2 N hN
  · refine ⟨N.children, ?_⟩
    rw [hfoot.2.1 cj hc hcj]
    exact hN

theorem parentInv_setNodeKey (s0 : GState) (pid : Nat) (pn : Node) (cj : Nat) (j : Nat)
    (t : GState) (c : Nat) (kk : Key) (h : ParentInv s0 pid pn cj j t) (hc : c ≠ pid) :
    ParentInv s0 pid pn cj j (setNodeKey t c kk) := by
  obtain ⟨hn0, ch, hch, hprops⟩ := h
  refine ⟨by rw [nextId_setNodeKey]; exact hn0, ch, ?_, ?_⟩
  · rw [node?_setNodeKey_ne t c pid kk (fun hh => hc hh.symm)]
    exact hch
  · intro kk2 c2 hkc
    obtain ⟨h1, h2, h3⟩ := hprops kk2 c2 hkc
    exact ⟨by rw [nextId_setNodeKey]; exact h1, h2, h3⟩

theorem binding_foot (pid : Nat) (pn : Node) (cj j : Nat) (t u : GState) (c : Nat)
    (hb : ∀ ch, t.node? pid = some { pn with children := ch } → alGet ch (.idx j) = some cj)
    (hfoot : FootStep c t u) (hc : c ≠ pid) (hplt : pid < t.nextId) :
    ∀ ch, u.node? pid = some { pn with children := ch } → alGet ch (.idx j) = some cj := by
  intro ch hch
  rw [hfoot.2.1 pid (fun hh => hc hh.symm) hplt] at hch
  exact hb ch hch

theorem binding_setNodeKey (pid : Nat) (pn : Node) (cj j : Nat) (t : GState)
    (c : Nat) (kk : Key)
    (hb : ∀ ch, t.node? pid = some { pn with children := ch } → alGet ch (.idx j) = some cj)
    (hc : c ≠ pid) :
    ∀ ch, (setNodeKey t c kk).node? pid = some { pn with children := ch } →
      alGet ch (.idx j) = some cj := by
  intro ch hch
  rw [node?_setNodeKey_ne t c pid kk (fun hh => hc hh.symm)] at hch
  exact hb ch hch

theorem moveTail_pre (f : Nat) (s0 : GState) (pid : Nat) (pn : Node) (cj : Nat) (cn : Node)
    (j k : Nat) (S : GState) (c : Nat) (value prev : Value) (b c2 : Bool) (e : Event)
    (hd dm : Bool) (mvd : List (Key × Nat))
    (hpidlt : pid < s0.nextId) (hcjlt : cj < s0.nextId) (hcjpid : cj ≠ pid)
    (hc : c ≠ pid) (hclt : c < S.nextId)
    (hv : flatV value = true) (hw : flatV prev = true)
    (hpi : ParentInv s0 pid pn cj j S)
    (hbind : ∀ ch, S.node? pid = some { pn with children := ch } →
      alGet ch (.idx j) = some cj)
    (hcjn : ∃ chc, S.node? cj = some { cn with children := chc })
    (hmvd : ∀ e2 ∈ mvd, e2.1 ≠ Key.idx k) :
    MovePre s0 pid pn cj cn j k
      { s := if c2 then
          emit (if b then (updateNodes f S c value prev).1 else S) e
        else (if b then (updateNodes f S c value prev).1 else S),
        hasADiff := hd, didMove := dm, moved := mvd } := by
  have hu : FootStep c S (if b then (updateNodes f S c value prev).1 else S) := by
    cases b
    · exact foot_refl c S
    · exact updateNodes_foot f S c value prev hv hw hclt
  have hpl : pid < S.nextId := Nat.lt_of_lt_of_le hpidlt hpi.1
  have hcl : cj < S.nextId := Nat.lt_of_lt_of_le hcjlt hpi.1
  have hpi2 := parentInv_foot s0 pid pn cj j S _ c hpidlt hpi hu hc
  have hbind2 := binding_foot pid pn cj j S _ c hbind hu hc hpl
  obtain ⟨chc, hchc⟩ := hcjn
  have hcjn2 := cjnode_foot S _ cj _ c hchc hu hcl
  cases c2
  · exact ⟨hpi2, hbind2, hcjn2, hmvd⟩
  · exact ⟨hpi2, hbind2, hcjn2, hmvd⟩

theorem moveTail_post (f : Nat) (s0 : GState) (pid : Nat) (pn : Node) (cj : Nat) (cn : Node)
    (j k : Nat) (S : GState) (c : Nat) (value prev : Value) (b c2 : Bool) (e : Event)
    (hd dm : Bool) (mvd : List (Key × Nat))
    (hpidlt : pid < s0.nextId) (hcjlt : cj < s0.nextId) (hcjpid : cj ≠ pid)
    (hc : c ≠ pid) (hclt : c < S.nextId)
    (hv : flatV value = true) (hw : flatV prev = true)
    (hpi : ParentInv s0 pid pn cj j S)
    (hcjn : ∃ chc, S.node? cj =
      some { id := cn.id, parent := cn.parent, key := Key.idx k, children := chc,
             listeners := cn.listeners })
    (hmvd : ∃ m1 m2, mvd = m1 ++ (Key.idx k, cj) :: m2 ∧ ∀ e2 ∈ m2, e2.1 ≠ Key.idx k) :
    MovePost s0 pid pn cj cn j k
      { s := if c2 then
          emit (if b then (updateNodes f S c value prev).1 else S) e
        else (if b then (updateNodes f S c value prev).1 else S),
        hasADiff := hd, didMove := dm, moved := mvd } := by
  have hu : FootStep c S (if b then (updateNodes f S c value prev).1 else S) := by
    cases b
    · exact foot_refl c S
    · exact updateNodes_foot f S c value prev hv hw hclt
  have hcl : cj < S.nextId := Nat.lt_of_lt_of_le hcjlt hpi.1
  have hpi2 := parentInv_foot s0 pid pn cj j S _ c hpidlt hpi hu hc
  obtain ⟨chc, hchc⟩ := hcjn
  have hcjn2 := cjnode_foot S _ cj _ c hchc hu hcl
  cases c2
  · exact ⟨hpi2, hcjn2, hmvd⟩
  · exact ⟨hpi2, hcjn2, hmvd⟩

theorem movePre_step (f : Nat) (s0 : GState) (pid : Nat) (pn : Node) (cj : Nat) (cn : Node)
    (j k : Nat) (es ps : List Value) (fld : String) (i : Nat)
    (hfo : ∀ v ∈ es, flatV v = true) (hfp : ∀ v ∈ ps, flatV v = true)
    (hpidlt : pid < s0.nextId) (hcjlt : cj < s0.nextId) (hcjpid : cj ≠ pid)
    (hik : i ≠ k)
    (hkm : alGet (buildKeyMap fld ps)
      (((Value.arr es).get? (.idx k)).get? (.str fld)) = some j)
    (huniq : ((Value.arr es).get? (.idx i)).get? (.str fld) ≠
      ((Value.arr es).get? (.idx k)).get? (.str fld))
    (acc : LoopAcc) (hacc : MovePre s0 pid pn cj cn j k acc) :
    MovePre s0 pid pn cj cn j k
      (mainBody (fun t c oo pp => updateNodes f t c oo pp) pid (.arr es) (.arr ps)
        (some fld) (some (buildKeyMap fld ps)) true acc (.idx i)) := by
  obtain ⟨hpi, hbind, hcjn, hmvd⟩ := hacc
  -- facts of the first child lookup (at the loop key itself)
  obtain ⟨hpiA, ⟨hcltA, hcpidA, -⟩, hbindA0, hqA, hmonoA⟩ :=
    parentInv_getChild s0 pid pn cj j acc.s (.idx i) hpidlt hcjlt hpi
  obtain ⟨ch0, hch0, -⟩ := hpi.2
  have hbindA : ∀ ch, (getChildNode acc.s pid (.idx i)).1.node? pid =
      some { pn with children := ch } → alGet ch (.idx j) = some cj :=
    fun ch hch => hbindA0 ch0 hch0 (hbind ch0 hch0) ch hch
  have hcjltacc : cj < acc.s.nextId := Nat.lt_of_lt_of_le hcjlt hpi.1
  have hcjnA : ∃ chc, (getChildNode acc.s pid (.idx i)).1.node? cj =
      some { cn with children := chc } := by
    obtain ⟨chc, hchc⟩ := hcjn
    exact ⟨chc, by rw [hqA cj hcjpid hcjltacc]; exact hchc⟩
  have hvflat : flatV ((Value.arr es).get? (.idx i)) = true := flat_getD es i hfo
  have hwflat : flatV ((Value.arr ps).get? (.idx i)) = true := flat_getD ps i hfp
  unfold mainBody
  dsimp only
  split
  · -- the slot differs: run the move detection
    by_cases hid : ((Value.arr es).get? (.idx i)).get? (.str fld) = Value.undef
    · -- no identity: the element is not a move candidate
      have hmv : moveStep pid (.arr es) (.arr ps) (some (buildKeyMap fld ps)) true acc
          (.idx i) ((Value.arr es).get? (.idx i))
          (((Value.arr es).get? (.idx i)).get? (.str fld))
          (decide ((Value.arr es).get? (.idx i) ≠ (Value.arr ps).get? (.idx i))) =
          ((getChildNode acc.s pid (.idx i)).1, (getChildNode acc.s pid (.idx i)).2,
            decide ((Value.arr es).get? (.idx i) ≠ (Value.arr ps).get? (.idx i)),
            acc.didMove, acc.moved) := by
        unfold moveStep
        dsimp only [Value.isArr]
        rw [show decide ((((Value.arr es).get? (.idx i)).get? (.str fld)) ≠ Value.undef)
          = false from by simp [hid]]
        simp only [Bool.and_false, Bool.false_eq_true, if_false]
      rw [hmv]
      dsimp only
      exact moveTail_pre f s0 pid pn cj cn j k _ _ _ _ _ _ _ _ _ _
        hpidlt hcjlt hcjpid hcpidA hcltA hvflat hwflat hpiA hbindA hcjnA hmvd
    · cases hji : alGet (buildKeyMap fld ps)
          (((Value.arr es).get? (.idx i)).get? (.str fld)) with
      | none =>
        have hmv : moveStep pid (.arr es) (.arr ps) (some (buildKeyMap fld ps)) true acc
            (.idx i) ((Value.arr es).get? (.idx i))
            (((Value.arr es).get? (.idx i)).get? (.str fld))
            (decide ((Value.arr es).get? (.idx i) ≠ (Value.arr ps).get? (.idx i))) =
            ((getChildNode acc.s pid (.idx i)).1, (getChildNode acc.s pid (.idx i)).2,
              decide ((Value.arr es).get? (.idx i) ≠ (Value.arr ps).get? (.idx i)),
              acc.didMove, acc.moved) := by
          unfold moveStep
          dsimp only [Value.isArr]
          rw [show decide ((((Value.arr es).get? (.idx i)).get? (.str fld)) ≠ Value.undef)
            = true from by simp [hid]]
          simp only [Bool.true_and, eq_self_iff_true, if_true]
          dsimp only [Option.bind]
          rw [hji]
        rw [hmv]
        dsimp only
        exact moveTail_pre f s0 pid pn cj cn j k _ _ _ _ _ _ _ _ _ _
          hpidlt hcjlt hcjpid hcpidA hcltA hvflat hwflat hpiA hbindA hcjnA hmvd
      | some ji =>
        have hjine : ji ≠ j := by
          intro hh
          subst hh
          exact huniq (buildKeyMap_inj fld ps _ _ ji hji hkm)
        by_cases hjii : Key.idx ji = Key.idx i
        · -- the identity maps to the same index: not a move
          have hmv : moveStep pid (.arr es) (.arr ps) (some (buildKeyMap fld ps)) true acc
              (.idx i) ((Value.arr es).get? (.idx i))
              (((Value.arr es).get? (.idx i)).get? (.str fld))
              (decide ((Value.arr es).get? (.idx i) ≠ (Value.arr ps).get? (.idx i))) =
              ((getChildNode acc.s pid (.idx i)).1, (getChildNode acc.s pid (.idx i)).2,
                decide ((Value.arr es).get? (.idx i) ≠ (Value.arr ps).get? (.idx i)),
                acc.didMove, acc.moved) := by
            unfold moveStep
            dsimp only [Value.isArr]
            rw [show decide ((((Value.arr es).get? (.idx i)).get? (.str fld)) ≠ Value.undef)
              = true from by simp [hid]]
            simp only [Bool.true_and, eq_self_iff_true, if_true]
            dsimp only [Option.bind]
            rw [hji]
            dsimp only
            rw [if_neg (fun hh => hh hjii)]
          rw [hmv]
          dsimp only
          exact moveTail_pre f s0 pid pn cj cn j k _ _ _ _ _ _ _ _ _ _
            hpidlt hcjlt hcjpid hcpidA hcltA hvflat hwflat hpiA hbindA hcjnA hmvd
        · -- a genuine move with the array length changed: reparent
          have hmv : moveStep pid (.arr es) (.arr ps) (some (buildKeyMap fld ps)) true acc
              (.idx i) ((Value.arr es).get? (.idx i))
              (((Value.arr es).get? (.idx i)).get? (.str fld))
              (decide ((Value.arr es).get? (.idx i) ≠ (Value.arr ps).get? (.idx i))) =
              (setNodeKey
                  (getChildNode (getChildNode acc.s pid (.idx i)).1 pid (.idx ji)).1
                  (getChildNode (getChildNode acc.s pid (.idx i)).1 pid (.idx ji)).2
                  (.idx i),
                (getChildNode (getChildNode acc.s pid (.idx i)).1 pid (.idx ji)).2,
                decide ((Value.arr ps).get? (.idx ji) ≠ (Value.arr es).get? (.idx i)),
                true,
                acc.moved ++
                  [(.idx i,
                    (getChildNode (getChildNode acc.s pid (.idx i)).1 pid (.idx ji)).2)]) := by
            unfold moveStep
            dsimp only [Value.isArr]
            rw [show decide ((((Value.arr es).get? (.idx i)).get? (.str fld)) ≠ Value.undef)
              = true from by simp [hid]]
            simp only [Bool.true_and, eq_self_iff_true, if_true]
            dsimp only [Option.bind]
            rw [hji]
            dsimp only
            rw [if_pos hjii]
          rw [hmv]
          dsimp only
          -- facts of the second child lookup (at the previous index)
          obtain ⟨hpiB, ⟨hcltB, hcpidB, hcjB0⟩, hbindB0, hqB, -⟩ :=
            parentInv_getChild s0 pid pn cj j (getChildNode acc.s pid (.idx i)).1
              (.idx ji) hpidlt hcjlt hpiA
          have hcjB : (getChildNode (getChildNode acc.s pid (.idx i)).1 pid (.idx ji)).2
              ≠ cj :=
            hcjB0 (by intro hh; exact hjine (by injection hh))
          obtain ⟨chA, hchA, -⟩ := hpiA.2
          have hbindB : ∀ ch,
              (getChildNode (getChildNode acc.s pid (.idx i)).1 pid (.idx ji)).1.node? pid =
              some { pn with children := ch } → alGet ch (.idx j) = some cj :=
            fun ch hch => hbindB0 chA hchA (hbindA chA hchA) ch hch
          have hcjltA : cj < (getChildNode acc.s pid (.idx i)).1.nextId :=
            Nat.lt_of_lt_of_le hcjlt hpiA.1
          have hcjnB : ∃ chc,
              (getChildNode (getChildNode acc.s pid (.idx i)).1 pid (.idx ji)).1.node? cj =
              some { cn with children := chc } := by
            obtain ⟨chc, hchc⟩ := hcjnA
            exact ⟨chc, by rw [hqB cj hcjpid hcjltA]; exact hchc⟩
          -- push the facts through the key rewrite of the moved node
          have hpiC := parentInv_setNodeKey s0 pid pn cj j _ _ (.idx i) hpiB hcpidB
          have hbindC := binding_setNodeKey pid pn cj j _ _ (.idx i) hbindB hcpidB
          have hcjnC : ∃ chc,
              (setNodeKey
                (getChildNode (getChildNode acc.s pid (.idx i)).1 pid (.idx ji)).1
                (getChildNode (getChildNode acc.s pid (.idx i)).1 pid (.idx ji)).2
                (.idx i)).node? cj = some { cn with children := chc } := by
            obtain ⟨chc, hchc⟩ := hcjnB
            refine ⟨chc, ?_⟩
            rw [node?_setNodeKey_ne _ _ _ _ (fun hh => hcjB hh.symm)]
            exact hchc
          have hmvdC : ∀ e2 ∈ acc.moved ++
              [(Key.idx i,
                (getChildNode (getChildNode acc.s pid (.idx i)).1 pid (.idx ji)).2)],
              e2.1 ≠ Key.idx k := by
            intro e2 he2
            rcases List.mem_append.mp he2 with h2 | h2
            · exact hmvd e2 h2
            · rw [List.mem_singleton] at h2
              rw [h2]
              intro hh
              exact hik (by injection hh)
          exact moveTail_pre f s0 pid pn cj cn j k _ _ _ _ _ _ _ _ _ _
            hpidlt hcjlt hcjpid hcpidB
            (by rw [nextId_setNodeKey]; exact hcltB)
            hvflat hwflat hpiC hbindC hcjnC hmvdC
  · exact ⟨hpi, hbind, hcjn, hmvd⟩

theorem movePost_step (f : Nat) (s0 : GState) (pid : Nat) (pn : Node) (cj : Nat) (cn : Node)
    (j k : Nat) (es ps : List Value) (fld : String) (i : Nat)
    (hfo : ∀ v ∈ es, flatV v = true) (hfp : ∀ v ∈ ps, flatV v = true)
    (hpidlt : pid < s0.nextId) (hcjlt : cj < s0.nextId) (hcjpid : cj ≠ pid)
    (hik : i ≠ k)
    (hkm : alGet (buildKeyMap fld ps)
      (((Value.arr es).get? (.idx k)).get? (.str fld)) = some j)
    (huniq : ((Value.arr es).get? (.idx i)).get? (.str fld) ≠
      ((Value.arr es).get? (.idx k)).get? (.str fld))
    (acc : LoopAcc) (hacc : MovePost s0 pid pn cj cn j k acc) :
    MovePost s0 pid pn cj cn j k
      (mainBody (fun t c oo pp => updateNodes f t c oo pp) pid (.arr es) (.arr ps)
        (some fld) (some (buildKeyMap fld ps)) true acc (.idx i)) := by
  obtain ⟨hpi, hcjn, hmvd⟩ := hacc
  obtain ⟨hpiA, ⟨hcltA, hcpidA, -⟩, -, hqA, hmonoA⟩ :=
    parentInv_getChild s0 pid pn cj j acc.s (.idx i) hpidlt hcjlt hpi
  have hcjltacc : cj < acc.s.nextId := Nat.lt_of_lt_of_le hcjlt hpi.1
  have hcjnA : ∃ chc, (getChildNode acc.s pid (.idx i)).1.node? cj =
      some { id := cn.id, parent := cn.parent, key := Key.idx k, children := chc,
             listeners := cn.listeners } := by
    obtain ⟨chc, hchc⟩ := hcjn
    exact ⟨chc, by rw [hqA cj hcjpid hcjltacc]; exact hchc⟩
  have hvflat : flatV ((Value.arr es).get? (.idx i)) = true := flat_getD es i hfo
  have hwflat : flatV ((Value.arr ps).get? (.idx i)) = true := flat_getD ps i hfp
  unfold mainBody
  dsimp only
  split
  · by_cases hid : ((Value.arr es).get? (.idx i)).get? (.str fld) = Value.undef
    · have hmv : moveStep pid (.arr es) (.arr ps) (some (buildKeyMap fld ps)) true acc
          (.idx i) ((Value.arr es).get? (.idx i))
          (((Value.arr es).get? (.idx i)).get? (.str fld))
          (decide ((Value.arr es).get? (.idx i) ≠ (Value.arr ps).get? (.idx i))) =
          ((getChildNode acc.s pid (.idx i)).1, (getChildNode acc.s pid (.idx i)).2,
            decide ((Value.arr es).get? (.idx i) ≠ (Value.arr ps).get? (.idx i)),
            acc.didMove, acc.moved) := by
        unfold moveStep
        dsimp only [Value.isArr]
        rw [show decide ((((Value.arr es).get? (.idx i)).get? (.str fld)) ≠ Value.undef)
          = false from by simp [hid]]
        simp only [Bool.and_false, Bool.false_eq_true, if_false]
      rw [hmv]
      dsimp only
      exact moveTail_post f s0 pid pn cj cn j k _ _ _ _ _ _ _ _ _ _
        hpidlt hcjlt hcjpid hcpidA hcltA hvflat hwflat hpiA hcjnA hmvd
    · cases hji : alGet (buildKeyMap fld ps)
          (((Value.arr es).get? (.idx i)).get? (.str fld)) with
      | none =>
        have hmv : moveStep pid (.arr es) (.arr ps) (some (buildKeyMap fld ps)) true acc
            (.idx i) ((Value.arr es).get? (.idx i))
            (((Value.arr es).get? (.idx i)).get? (.str fld))
            (decide ((Value.arr es).get? (.idx i) ≠ (Value.arr ps).get? (.idx i))) =
            ((getChildNode acc.s pid (.idx i)).1, (getChildNode acc.s pid (.idx i)).2,
              decide ((Value.arr es).get? (.idx i) ≠ (Value.arr ps).get? (.idx i)),
              acc.didMove, acc.moved) := by
          unfold moveStep
          dsimp only [Value.isArr]
          rw [show decide ((((Value.arr es).get? (.idx i)).get? (.str fld)) ≠ Value.undef)
            = true from by simp [hid]]
          simp only [Bool.true_and, eq_self_iff_true, if_true]
          dsimp only [Option.bind]
          rw [hji]
        rw [hmv]
        dsimp only
        exact moveTail_post f s0 pid pn cj cn j k _ _ _ _ _ _ _ _ _ _
          hpidlt hcjlt hcjpid hcpidA hcltA hvflat hwflat hpiA hcjnA hmvd
      | some ji =>
        have hjine : ji ≠ j := by
          intro hh
          subst hh
          exact huniq (buildKeyMap_inj fld ps _ _ ji hji hkm)
        by_cases hjii : Key.idx ji = Key.idx i
        · have hmv : moveStep pid (.arr es) (.arr ps) (some (buildKeyMap fld ps)) true acc
              (.idx i) ((Value.arr es).get? (.idx i))
              (((Value.arr es).get? (.idx i)).get? (.str fld))
              (decide ((Value.arr es).get? (.idx i) ≠ (Value.arr ps).get? (.idx i))) =
              ((getChildNode acc.s pid (.idx i)).1, (getChildNode acc.s pid (.idx i)).2,
                decide ((Value.arr es).get? (.idx i) ≠ (Value.arr ps).get? (.idx i)),
                acc.didMove, acc.moved) := by
            unfold moveStep
            dsimp only [Value.isArr]
            rw [show decide ((((Value.arr es).get? (.idx i)).get? (.str fld)) ≠ Value.undef)
              = true from by simp [hid]]
            simp only [Bool.true_and, eq_self_iff_true, if_true]
            dsimp only [Option.bind]
            rw [hji]
            dsimp only
            rw [if_neg (fun hh => hh hjii)]
          rw [hmv]
          dsimp only
          exact moveTail_post f s0 pid pn cj cn j k _ _ _ _ _ _ _ _ _ _
            hpidlt hcjlt hcjpid hcpidA hcltA hvflat hwflat hpiA hcjnA hmvd
        · have hmv : moveStep pid (.arr es) (.arr ps) (some (buildKeyMap fld ps)) true acc
              (.idx i) ((Value.arr es).get? (.idx i))
              (((Value.arr es).get? (.idx i)).get? (.str fld))
              (decide ((Value.arr es).get? (.idx i) ≠ (Value.arr ps).get? (.idx i))) =
              (setNodeKey
                  (getChildNode (getChildNode acc.s pid (.idx i)).1 pid (.idx ji)).1
                  (getChildNode (getChildNode acc.s pid (.idx i)).1 pid (.idx ji)).2
                  (.idx i),
                (getChildNode (getChildNode acc.s pid (.idx i)).1 pid (.idx ji)).2,
                decide ((Value.arr ps).get? (.idx ji) ≠ (Value.arr es).get? (.idx i)),
                true,
                acc.moved ++
                  [(.idx i,
                    (getChildNode (getChildNode acc.s pid (.idx i)).1 pid (.idx ji)).2)]) := by
            unfold moveStep
            dsimp only [Value.isArr]
            rw [show decide ((((Value.arr es).get? (.idx i)).get? (.str fld)) ≠ Value.undef)
              = true from by simp [hid]]
            simp only [Bool.true_and, eq_self_iff_true, if_true]
            dsimp only [Option.bind]
            rw [hji]
            dsimp only
            rw [if_pos hjii]
          rw [hmv]
          dsimp only
          obtain ⟨hpiB, ⟨hcltB, hcpidB, hcjB0⟩, -, hqB, -⟩ :=
            parentInv_getChild s0 pid pn cj j (getChildNode acc.s pid (.idx i)).1
              (.idx ji) hpidlt hcjlt hpiA
          have hcjB : (getChildNode (getChildNode acc.s pid (.idx i)).1 pid (.idx ji)).2
              ≠ cj :=
            hcjB0 (by intro hh; exact hjine (by injection hh))
          have hcjltA : cj < (getChildNode acc.s pid (.idx i)).1.nextId :=
            Nat.lt_of_lt_of_le hcjlt hpiA.1
          have hcjnB : ∃ chc,
              (getChildNode (getChildNode acc.s pid (.idx i)).1 pid (.idx ji)).1.node? cj =
              some { id := cn.id, parent := cn.parent, key := Key.idx k, children := chc,
                     listeners := cn.listeners } := by
            obtain ⟨chc, hchc⟩ := hcjnA
            exact ⟨chc, by rw [hqB cj hcjpid hcjltA]; exact hchc⟩
          have hpiC := parentInv_setNodeKey s0 pid pn cj j _ _ (.idx i) hpiB hcpidB
          have hcjnC : ∃ chc,
              (setNodeKey
                (getChildNode (getChildNode acc.s pid (.idx i)).1 pid (.idx ji)).1
                (getChildNode (getChildNode acc.s pid (.idx i)).1 pid (.idx ji)).2
                (.idx i)).node? cj =
              some { id := cn.id, parent := cn.parent, key := Key.idx k, children := chc,
                     listeners := cn.listeners } := by
            obtain ⟨chc, hchc⟩ := hcjnB
            refine ⟨chc, ?_⟩
            rw [node?_setNodeKey_ne _ _ _ _ (fun hh => hcjB hh.symm)]
            exact hchc
          have hmvdC : ∃ m1 m2, (acc.moved ++
              [(Key.idx i,
                (getChildNode (getChildNode acc.s pid (.idx i)).1 pid (.idx ji)).2)]) =
              m1 ++ (Key.idx k, cj) :: m2 ∧ ∀ e2 ∈ m2, e2.1 ≠ Key.idx k := by
            obtain ⟨m1, m2, heq, hm2⟩ := hmvd
            refine ⟨m1, m2 ++
              [(Key.idx i,
                (getChildNode (getChildNode acc.s pid (.idx i)).1 pid (.idx ji)).2)],
              ?_, ?_⟩
            · rw [heq]
              simp [List.append_assoc]
            · intro e2 he2
              rcases List.mem_append.mp he2 with h2 | h2
              · exact hm2 e2 h2
              · rw [List.mem_singleton] at h2
                rw [h2]
                intro hh
                exact hik (by injection hh)
          exact moveTail_post f s0 pid pn cj cn j k _ _ _ _ _ _ _ _ _ _
            hpidlt hcjlt hcjpid hcpidB
            (by rw [nextId_setNodeKey]; exact hcltB)
            hvflat hwflat hpiC hcjnC hmvdC
  · exact ⟨hpi, hcjn, hmvd⟩

theorem moveK_step (f : Nat) (s0 : GState) (pid : Nat) (pn : Node) (cj : Nat) (cn : Node)
    (j k : Nat) (es ps : List Value) (fld : String)
    (hfo : ∀ v ∈ es, flatV v = true) (hfp : ∀ v ∈ ps, flatV v = true)
    (hpidlt : pid < s0.nextId) (hcjlt : cj < s0.nextId) (hcjpid : cj ≠ pid)
    (hdiff : (Value.arr es).get? (.idx k) ≠ (Value.arr ps).get? (.idx k))
    (hidk : ((Value.arr es).get? (.idx k)).get? (.str fld) ≠ .undef)
    (hkm : alGet (buildKeyMap fld ps)
      (((Value.arr es).get? (.idx k)).get? (.str fld)) = some j)
    (hjk : j ≠ k)
    (acc : LoopAcc) (hacc : MovePre s0 pid pn cj cn j k acc) :
    MovePost s0 pid pn cj cn j k
      (mainBody (fun t c oo pp => updateNodes f t c oo pp) pid (.arr es) (.arr ps)
        (some fld) (some (buildKeyMap fld ps)) true acc (.idx k)) := by
  obtain ⟨hpi, hbind, hcjn, -⟩ := hacc
  obtain ⟨hpiA, ⟨hcltA, hcpidA, -⟩, hbindA0, hqA, hmonoA⟩ :=
    parentInv_getChild s0 pid pn cj j acc.s (.idx k) hpidlt hcjlt hpi
  obtain ⟨ch0, hch0, -⟩ := hpi.2
  have hbindA : ∀ ch, (getChildNode acc.s pid (.idx k)).1.node? pid =
      some { pn with children := ch } → alGet ch (.idx j) = some cj :=
    fun ch hch => hbindA0 ch0 hch0 (hbind ch0 hch0) ch hch
  have hcjltacc : cj < acc.s.nextId := Nat.lt_of_lt_of_le hcjlt hpi.1
  have hcjnA : ∃ chc, (getChildNode acc.s pid (.idx k)).1.node? cj =
      some { cn with children := chc } := by
    obtain ⟨chc, hchc⟩ := hcjn
    exact ⟨chc, by rw [hqA cj hcjpid hcjltacc]; exact hchc⟩
  have hvflat : flatV ((Value.arr es).get? (.idx k)) = true := flat_getD es k hfo
  have hwflat : flatV ((Value.arr ps).get? (.idx k)) = true := flat_getD ps k hfp
  unfold mainBody
  dsimp only
  rw [show decide ((Value.arr es).get? (.idx k) ≠ (Value.arr ps).get? (.idx k)) = true
    from by simp [hdiff]]
  simp only [eq_self_iff_true, if_true]
  have hmv : moveStep pid (.arr es) (.arr ps) (some (buildKeyMap fld ps)) true acc
      (.idx k) ((Value.arr es).get? (.idx k))
      (((Value.arr es).get? (.idx k)).get? (.str fld)) true =
      (setNodeKey
          (getChildNode (getChildNode acc.s pid (.idx k)).1 pid (.idx j)).1
          (getChildNode (getChildNode acc.s pid (.idx k)).1 pid (.idx j)).2
          (.idx k),
        (getChildNode (getChildNode acc.s pid (.idx k)).1 pid (.idx j)).2,
        decide ((Value.arr ps).get? (.idx j) ≠ (Value.arr es).get? (.idx k)),
        true,
        acc.moved ++
          [(.idx k,
            (getChildNode (getChildNode acc.s pid (.idx k)).1 pid (.idx j)).2)]) := by
    unfold moveStep
    dsimp only [Value.isArr]
    rw [show decide ((((Value.arr es).get? (.idx k)).get? (.str fld)) ≠ Value.undef)
      = true from by simp [hidk]]
    simp only [Bool.true_and, eq_self_iff_true, if_true]
    dsimp only [Option.bind]
    rw [hkm]
    dsimp only
    rw [if_pos (show Key.idx j ≠ Key.idx k from fun hh => hjk (by injection hh))]
  rw [hmv]
  dsimp only
  -- the lookup at the previous index hits the original child node
  obtain ⟨chA, hchA, -⟩ := hpiA.2
  have hbA : alGet chA (.idx j) = some cj := hbindA chA hchA
  have hg1 : getChildNode (getChildNode acc.s pid (.idx k)).1 pid (.idx j) =
      ((getChildNode acc.s pid (.idx k)).1, cj) :=
    getChildNode_hit _ pid (.idx j) cj { pn with children := chA } hchA hbA
  rw [hg1]
  dsimp only
  have hcjltA : cj < (getChildNode acc.s pid (.idx k)).1.nextId :=
    Nat.lt_of_lt_of_le hcjlt hpiA.1
  obtain ⟨chc, hchcA⟩ := hcjnA
  have hSnode : (setNodeKey (getChildNode acc.s pid (.idx k)).1 cj (.idx k)).node? cj =
      some { id := cn.id, parent := cn.parent, key := Key.idx k, children := chc,
             listeners := cn.listeners } :=
    node?_setNodeKey_hit _ cj (.idx k) _ hchcA
  have hpiC := parentInv_setNodeKey s0 pid pn cj j _ cj (.idx k) hpiA hcjpid
  have hmvdC : ∃ m1 m2, (acc.moved ++ [(Key.idx k, cj)]) =
      m1 ++ (Key.idx k, cj) :: m2 ∧ ∀ e2 ∈ m2, e2.1 ≠ Key.idx k :=
    ⟨acc.moved, [], rfl, fun e2 he2 => absurd he2 (List.not_mem_nil e2)⟩
  exact moveTail_post f s0 pid pn cj cn j k _ cj _ _ _ _ _ _ _ _
    hpidlt hcjlt hcjpid hcjpid
    (by rw [nextId_setNodeKey]; exact hcjltA)
    hvflat hwflat hpiC ⟨chc, hSnode⟩ hmvdC

theorem applyMoved_cons (t : GState) (pid : Nat) (e : Key × Nat) (m : List (Key × Nat)) :
    applyMoved t pid (e :: m) =
      applyMoved (match t.node? pid with
        | some p => setNode t pid { p with children := alSet p.children e.1 e.2 }
        | none => t) pid m := rfl

theorem applyMoved_node (pid : Nat) (pn : Node) :
    ∀ (m : List (Key × Nat)) (t : GState) (ch : List (Key × Nat)),
      t.node? pid = some { pn with children := ch } →
      ∃ ch2, (applyMoved t pid m).node? pid = some { pn with children := ch2 } ∧
        (∀ kk, (∀ e ∈ m, e.1 ≠ kk) → alGet ch2 kk = alGet ch kk) := by
  intro m
  induction m with
  | nil =>
    intro t ch h
    exact ⟨ch, h, fun kk _ => rfl⟩
  | cons e m ih =>
    intro t ch h
    rw [applyMoved_cons]
    have hstep : (match t.node? pid with
        | some p => setNode t pid { p with children := alSet p.children e.1 e.2 }
        | none => t) = setNode t pid { pn with children := alSet ch e.1 e.2 } := by
      rw [h]
    rw [hstep]
    obtain ⟨ch2, h2, hp2⟩ := ih (setNode t pid { pn with children := alSet ch e.1 e.2 })
      (alSet ch e.1 e.2) (node?_setNode_self t pid _)
    refine ⟨ch2, h2, ?_⟩
    intro kk hkk
    rw [hp2 kk (fun e2 he2 => hkk e2 (List.mem_cons_of_mem _ he2))]
    exact alGet_alSet_ne _ _ _ _ (fun hh => (hkk e (List.mem_cons_self _ _)) hh.symm)

theorem applyMoved_get (pid : Nat) (pn : Node) (kk : Key) (c : Nat) :
    ∀ (m1 m2 : List (Key × Nat)) (t : GState) (ch : List (Key × Nat)),
      t.node? pid = some { pn with children := ch } →
      (∀ e ∈ m2, e.1 ≠ kk) →
      ∃ chF, (applyMoved t pid (m1 ++ (kk, c) :: m2)).node? pid =
        some { pn with children := chF } ∧ alGet chF kk = some c := by
  intro m1
  induction m1 with
  | nil =>
    intro m2 t ch h hm2
    rw [List.nil_append, applyMoved_cons]
    have hstep : (match t.node? pid with
        | some p => setNode t pid { p with children := alSet p.children kk c }
        | none => t) = setNode t pid { pn with children := alSet ch kk c } := by
      rw [h]
    rw [hstep]
    obtain ⟨ch2, h2, hp2⟩ := applyMoved_node pid pn m2
      (setNode t pid { pn with children := alSet ch kk c })
      (alSet ch kk c) (node?_setNode_self t pid _)
    refine ⟨ch2, h2, ?_⟩
    rw [hp2 kk hm2]
    exact alGet_alSet_self _ _ _
  | cons e m1 ih =>
    intro m2 t ch h hm2
    rw [List.cons_append, applyMoved_cons]
    have hstep : (match t.node? pid with
        | some p => setNode t pid { p with children := alSet p.children e.1 e.2 }
        | none => t) = setNode t pid { pn with children := alSet ch e.1 e.2 } := by
      rw [h]
    rw [hstep]
    exact ih m2 _ (alSet ch e.1 e.2) (node?_setNode_self t pid _) hm2

theorem applyMoved_ne (pid q : Nat) (hq : q ≠ pid) :
    ∀ (m : List (Key × Nat)) (t : GState), (applyMoved t pid m).node? q = t.node? q := by
  intro m
  induction m with
  | nil => intro t; rfl
  | cons e m ih =>
    intro t
    rw [applyMoved_cons]
    cases ht : t.node? pid with
    | none =>
      dsimp only
      exact ih t
    | some p =>
      dsimp only
      rw [ih]
      exact node?_setNode_ne t pid q _ hq

theorem range_split (k n : Nat) (h : k < n) :
    List.range n = List.range' 0 k ++ k :: List.range' (k + 1) (n - (k + 1))
      := by
  rw [List.range_eq_range']
  have h1 : n = (n - k) + k := by omega
  conv_lhs => rw [h1]
  rw [← List.range'_append 0 k (n - k) 1]
  congr 1
  have h2 : 0 + 1 * k = k := by omega
  rw [h2]
  have h3 : n - k = (n - (k + 1)) + 1 := by omega
  rw [h3]
  rfl

/-- C2 (amended): with the array length changed, an element whose
identity maps to a different previous index is treated as a move — the
child node at the previous index is reparented: its key becomes the new
index, its id, parent link and listeners flag survive, and the parent's
children map reaches it at the new index after the pending moves are
applied. -/
theorem array_move_reparents
    (f : Nat) (s : GState) (pid : Nat) (es ps : List Value) (fld : String)
    (j k cj : Nat) (pn cn : Node)
    (hfld : idFieldOf (.arr ps) = some fld)
    (hlen : es.length ≠ ps.length)
    (hk : k < es.length)
    (hdiff : (Value.arr es).get? (.idx k) ≠ (Value.arr ps).get? (.idx k))
    (hidk : ((Value.arr es).get? (.idx k)).get? (.str fld) ≠ .undef)
    (hkm : alGet (buildKeyMap fld ps)
      (((Value.arr es).get? (.idx k)).get? (.str fld)) = some j)
    (hjk : j ≠ k)
    (huniq : ∀ i, i ≠ k → ((Value.arr es).get? (.idx i)).get? (.str fld) ≠
      ((Value.arr es).get? (.idx k)).get? (.str fld))
    (hfo : ∀ v ∈ es, flatV v = true) (hfp : ∀ v ∈ ps, flatV v = true)
    (hpn : s.node? pid = some pn) (hpidlt : pid < s.nextId)
    (hcj : alGet pn.children (.idx j) = some cj) (hcjlt : cj < s.nextId)
    (hcjpid : cj ≠ pid) (hcn : s.node? cj = some cn)
    (hentries : ∀ kk c, alGet pn.children kk = some c →
      c < s.nextId ∧ c ≠ pid ∧ (kk ≠ .idx j → c ≠ cj)) :
    ∃ chF chC,
      (updateNodes (f + 1) s pid (.arr es) (.arr ps)).1.node? pid =
        some { pn with children := chF } ∧
      alGet chF (.idx k) = some cj ∧
      (updateNodes (f + 1) s pid (.arr es) (.arr ps)).1.node? cj =
        some { id := cn.id, parent := cn.parent, key := Key.idx k, children := chC,
               listeners := cn.listeners } := by
  simp only [updateNodes]
  dsimp only [Value.isArr]
  simp only [Bool.and_self, eq_self_iff_true, if_true]
  rw [hfld]
  dsimp only [Option.map]
  unfold mainPart
  dsimp only [Value.truthy, Value.isArr, loopKeys]
  simp only [Bool.not_true, Bool.false_or, eq_self_iff_true, if_true]
  rw [show decide ((Value.arr es).jsLength ≠ (Value.arr ps).jsLength) = true from by
    simp [Value.jsLength, hlen]]
  rw [range_split k es.length hk]
  rw [List.map_append, List.map_cons, List.foldl_append, List.foldl_cons]
  have hinit : MovePre s pid pn cj cn j k
      { s := s, hasADiff := true, didMove := false, moved := [] } := by
    refine ⟨⟨Nat.le_refl _, pn.children, hpn, hentries⟩, ?_, ⟨cn.children, hcn⟩, by simp⟩
    intro ch hch
    rw [hpn] at hch
    have hpe : pn = { pn with children := ch } := by injection hch
    have hce : pn.children = ch := congrArg Node.children hpe
    rw [← hce]
    exact hcj
  have h1 : MovePre s pid pn cj cn j k
      (List.foldl
        (mainBody (fun t c oo pp => updateNodes f t c oo pp) pid (.arr es) (.arr ps)
          (some fld) (some (buildKeyMap fld ps)) true)
        { s := s, hasADiff := true, didMove := false, moved := [] }
        ((List.range' 0 k).map Key.idx)) := by
    refine foldl_preserve (MovePre s pid pn cj cn j k) _ _ _ hinit ?_
    intro b a hb ha
    obtain ⟨i, hi, rfl⟩ := List.mem_map.mp ha
    have hik : i ≠ k := by
      have := (List.mem_range'_1.mp hi).2
      omega
    exact movePre_step f s pid pn cj cn j k es ps fld i hfo hfp hpidlt hcjlt hcjpid
      hik hkm (huniq i hik) b hb
  have h2 := moveK_step f s pid pn cj cn j k es ps fld hfo hfp hpidlt hcjlt hcjpid
    hdiff hidk hkm hjk _ h1
  have h3 : MovePost s pid pn cj cn j k
      (List.foldl
        (mainBody (fun t c oo pp => updateNodes f t c oo pp) pid (.arr es) (.arr ps)
          (some fld) (some (buildKeyMap fld ps)) true)
        (mainBody (fun t c oo pp => updateNodes f t c oo pp) pid (.arr es) (.arr ps)
          (some fld) (some (buildKeyMap fld ps)) true
          (List.foldl
            (mainBody (fun t c oo pp => updateNodes f t c oo pp) pid (.arr es) (.arr ps)
              (some fld) (some (buildKeyMap fld ps)) true)
            { s := s, hasADiff := true, didMove := false, moved := [] }
            ((List.range' 0 k).map Key.idx))
          (Key.idx k))
        ((List.range' (k + 1) (es.length - (k + 1))).map Key.idx)) := by
    refine foldl_preserve (MovePost s pid pn cj cn j k) _ _ _ h2 ?_
    intro b a hb ha
    obtain ⟨i, hi, rfl⟩ := List.mem_map.mp ha
    have hik : i ≠ k := by
      have := (List.mem_range'_1.mp hi).1
      omega
    exact movePost_step f s pid pn cj cn j k es ps fld i hfo hfp hpidlt hcjlt hcjpid
      hik hkm (huniq i hik) b hb
  obtain ⟨⟨hmono, chF0, hchF0, -⟩, ⟨chC, hcjF⟩, m1, m2, hm, hm2⟩ := h3
  obtain ⟨chF, hchF, hget⟩ :=
    applyMoved_get pid pn (.idx k) cj m1 m2 _ chF0 hchF0 hm2
  refine ⟨chF, chC, ?_, hget, ?_⟩
  · show (applyMoved _ pid _).node? pid = _
    rw [hm]
    exact hchF
  · show (applyMoved _ pid _).node? cj = _
    rw [applyMoved_ne pid cj hcjpid _ _]
    exact hcjF

/-- C2 counterexample: a same-length reorder through the write pipeline
(`{items: [A, B]}` set to `[B, A]`, identities `1` and `2`).  Before the
write, the element with id `2` lives at index 1 under child node 3.
After the reorder its new index is 0 — but the parent's children map
still reaches node 2 at index 0 and node 3 keeps its old key `idx 1`: a
move is detected, yet no node is reparented because the array length did
not change, so the child node for id `2` is not reachable at its new
index. -/
theorem array_move_same_length_counterexample :
    (set exItems 1 (.v (.arr [exB, exA]))).2.isOk = true ∧
    ((exItems.node? 1).map (fun n => alGet n.children (.idx 1))) = some (some 3) ∧
    (((set exItems 1 (.v (.arr [exB, exA]))).1.node? 1).map
      (fun n => alGet n.children (.idx 0))) = some (some 2) ∧
    (((set exItems 1 (.v (.arr [exB, exA]))).1.node? 3).map Node.key) =
      some (.idx 1) := by decide

/-- Witness for C2 (amended): shrinking `[A, B]` to `[B]` (length
changed) reparents node 3 — the node of the element with id `2` — to
index 0, where the children map now reaches it. -/
theorem array_move_reparents_witness :
    ∃ chF chC,
      (updateNodes 1 exItems 1 (.arr [exB]) (.arr [exA, exB])).1.node? 1 =
        some { id := 1, parent := some 0, key := Key.str "items", children := chF,
               listeners := true } ∧
      alGet chF (.idx 0) = some 3 ∧
      (updateNodes 1 exItems 1 (.arr [exB]) (.arr [exA, exB])).1.node? 3 =
        some { id := 3, parent := some 1, key := Key.idx 0, children := chC,
               listeners := true } :=
  array_move_reparents 0 exItems 1 [exB] [exA, exB] "id" 1 0 3
    { id := 1, parent := some 0, key := .str "items",
      children := [(.idx 0, 2), (.idx 1, 3)], listeners := true }
    { id := 3, parent := some 1, key := .idx 1, children := [], listeners := true }
    (by decide) (by decide) (by decide) (by decide) (by decide) (by decide) (by decide)
    (by
      intro i hi
      cases i with
      | zero => exact absurd rfl hi
      | succ n =>
        have h1 : (Value.arr [exB]).get? (.idx (n + 1)) = Value.undef := by
          show [exB].getD (n + 1) Value.undef = Value.undef
          simp [List.getD]
        rw [h1]
        decide)
    (by
      intro v hv
      rw [List.mem_singleton] at hv
      subst hv
      decide)
    (by
      intro v hv
      rcases List.mem_cons.mp hv with h | h
      · subst h
        decide
      · rw [List.mem_singleton] at h
        subst h
        decide)
    (by decide) (by decide) (by decide) (by decide) (by decide) (by decide)
    (by
      intro kk c h
      have h2 : alGet [(Key.idx 0, (2 : Nat)), (Key.idx 1, 3)] kk = some c := h
      by_cases h0 : Key.idx 0 = kk
      · rw [← h0] at h2
        have hc : (2 : Nat) = c := by
          have h3 : alGet [(Key.idx 0, (2 : Nat)), (Key.idx 1, 3)] (Key.idx 0) =
              some 2 := rfl
          injection h3.symm.trans h2
        rw [← hc, ← h0]
        decide
      · by_cases h1 : Key.idx 1 = kk
        · have hc : (3 : Nat) = c := by
            rw [← h1] at h2
            have h3 : alGet [(Key.idx 0, (2 : Nat)), (Key.idx 1, 3)] (Key.idx 1) =
                some 3 := rfl
            injection h3.symm.trans h2
          rw [← hc, ← h1]
          decide
        · exfalso
          have h3 : alGet [(Key.idx 0, (2 : Nat)), (Key.idx 1, 3)] kk = none := by
            simp [alGet, h0, h1]
          rw [h3] at h2
          exact Option.noConfusion h2)
